import Mathlib

/-!
Verification of the btree-typescript B+ tree specification.

The repository ships only the declaration file `src/b+tree.d.ts`; the
implementation (`b+tree.ts`) is not present under `src/`. The definitions
below are therefore modelled from the specification (`spec.md`) and the doc
comments of the declaration file. The caller-supplied comparator, which the
spec treats as an opaque total order (spec section 4.1), is modelled by a
`LinearOrder` instance on the key type; comparator equality (`cmp = 0`) is
modelled as equality of keys.
-/

set_option maxHeartbeats 1000000

section ListModel

variable {K V : Type} [LinearOrder K] {R : Type}

/-- Modelled from the spec: the keys of a list of key-value pairs, used to
state the leaf invariant "keys strictly ascending" (spec section 3,
invariant 1). -/
def keysOfList (l : List (K × V)) : List K := l.map Prod.fst

/-- Modelled from the spec: binary search of a sorted leaf for the target key
(spec section 4.2 Lookup), expressed as a linear recursion that returns the
same answer on the sorted lists it is applied to. Returns the parallel value
on a hit, otherwise the absent sentinel `none`. -/
def lookupKey (k : K) : List (K × V) → Option V
  | [] => none
  | (k', v) :: rest => if k' = k then some v else lookupKey k rest

/-- Modelled from the spec: presence of an entry whose key compares equal to
`k`. -/
def containsKey (k : K) (l : List (K × V)) : Bool := (lookupKey k l).isSome

/-- Modelled from the spec: insertion of a key-value pair into the ordered
entry list of a leaf at the index found by binary search (spec section 4.2
Insert); an entry with an equal key has both its key and its value replaced. -/
def insertPair (k : K) (v : V) : List (K × V) → List (K × V)
  | [] => [(k, v)]
  | (k', v') :: rest =>
    if k < k' then (k, v) :: (k', v') :: rest
    else if k' < k then (k', v') :: insertPair k v rest
    else (k, v) :: rest

/-- Modelled from the spec: splicing the entry with key `k` out of a leaf's
entry list (spec section 4.2 Delete); if the key is absent the list is
unchanged. -/
def eraseKey (k : K) : List (K × V) → List (K × V)
  | [] => []
  | (k', v') :: rest => if k' = k then rest else (k', v') :: eraseKey k rest

/-- Modelled from the spec: the net effect of `set(k, v, overwrite)` on the
entry list (spec section 4.4): with `overwrite = true` the pair is always
inserted or replaced; with `overwrite = false` an existing entry is kept. -/
def setList (ow : Bool) (k : K) (v : V) (l : List (K × V)) : List (K × V) :=
  if ow then insertPair k v l
  else if containsKey k l then l else insertPair k v l

end ListModel

section NodeModel

variable {K V : Type} [LinearOrder K] {R : Type}

/-- Modelled from the spec: a B+ tree node (spec section 3). A leaf holds the
ordered key-value entries (the two equal-length parallel sequences of the
spec are fused into one list of pairs); an internal node holds its ordered
children. The per-child max keys, which spec invariant 2 equates with the
largest key of the child's subtree, are recovered by `BNode.maxKeyO` below. -/
inductive BNode (K V : Type) where
  | leaf (items : List (K × V))
  | internal (children : List (BNode K V))

mutual

/-- Modelled from the spec: in-order contents of a subtree; leaves are the
sole source of truth for data (spec glossary, "B+ tree"). -/
def BNode.toList : BNode K V → List (K × V)
  | .leaf items => items
  | .internal cs => BNode.toListChildren cs

/-- Modelled from the spec: in-order concatenation of the contents of an
internal node's children. -/
def BNode.toListChildren : List (BNode K V) → List (K × V)
  | [] => []
  | c :: cs => c.toList ++ BNode.toListChildren cs

end

/-- Modelled from the spec: the largest key of a node's subtree, i.e. the
per-child max key a parent stores for this node (spec section 3,
invariant 2); `none` for an empty subtree. -/
def BNode.maxKeyO (n : BNode K V) : Option K := (keysOfList n.toList).getLast?

/-- Modelled from the spec: child-selection test (spec section 4.3): the
descent enters the first child whose max key is at least the target. -/
def leKeyB (k : K) (n : BNode K V) : Bool :=
  match n.maxKeyO with
  | none => false
  | some m => decide (k ≤ m)

mutual

/-- Modelled from the spec: lookup (spec sections 4.2 and 4.3): descend into
the first child whose max key is at least the target; report not-found when
the target exceeds every max key. -/
def BNode.get (k : K) : BNode K V → Option V
  | .leaf items => lookupKey k items
  | .internal cs => BNode.getChildren k cs

/-- Modelled from the spec: lookup-mode child selection over the ordered
children list (spec section 4.3 Child selection). -/
def BNode.getChildren (k : K) : List (BNode K V) → Option V
  | [] => none
  | c :: cs => if leKeyB k c then c.get k else BNode.getChildren k cs

end

/-- Modelled from the spec: result of an insertion into a subtree (spec
sections 4.2 and 4.3): the updated node, the new right sibling when the node
split, and whether a new entry was added (as opposed to overwritten). -/
structure SetResult (K V : Type) where
  node : BNode K V
  right? : Option (BNode K V)
  added : Bool

mutual

/-- Modelled from the spec: insertion (spec section 4.2 for leaves, 4.3 for
internal nodes). A full leaf splits with the left half keeping the first
half of the entries and the new pair joining whichever half covers it;
an internal node that exceeds the branching factor after adopting a child's
split sibling splits symmetrically. -/
def BNode.set (M : Nat) (k : K) (v : V) (ow : Bool) : BNode K V → SetResult K V
  | .leaf items =>
    match lookupKey k items with
    | some _ =>
      if ow then ⟨.leaf (insertPair k v items), none, false⟩
      else ⟨.leaf items, none, false⟩
    | none =>
      if items.length < M then ⟨.leaf (insertPair k v items), none, true⟩
      else
        match items.drop ((M + 1) / 2) with
        | [] => ⟨.leaf (insertPair k v (items.take ((M + 1) / 2))), none, true⟩
        | p :: ps =>
          if k < p.1 then
            ⟨.leaf (insertPair k v (items.take ((M + 1) / 2))),
              some (.leaf (p :: ps)), true⟩
          else
            ⟨.leaf (items.take ((M + 1) / 2)),
              some (.leaf (insertPair k v (p :: ps))), true⟩
  | .internal cs =>
    let r := BNode.setChildren M k v ow cs
    if r.1.length ≤ M then ⟨.internal r.1, none, r.2⟩
    else
      ⟨.internal (r.1.take ((M + 1) / 2)),
        some (.internal (r.1.drop ((M + 1) / 2))), r.2⟩

/-- Modelled from the spec: insertion-mode descent over the children (spec
section 4.3): recurse into the first child whose max key is at least the
target, or into the last child when the target exceeds every max key, and
splice in the returned split sibling. -/
def BNode.setChildren (M : Nat) (k : K) (v : V) (ow : Bool) :
    List (BNode K V) → (List (BNode K V) × Bool)
  | [] => ([], false)
  | [c] =>
    let r := BNode.set M k v ow c
    (r.node :: r.right?.toList, r.added)
  | c :: c' :: cs =>
    if leKeyB k c then
      let r := BNode.set M k v ow c
      (r.node :: (r.right?.toList ++ c' :: cs), r.added)
    else
      let r := BNode.setChildren M k v ow (c' :: cs)
      (c :: r.1, r.2)

end

/-- Modelled from the spec: shallow emptiness test used when deletion drops a
node whose contents were exhausted (spec section 4.3 Delete; the tolerance
note of invariant 6 permits this simple under-fill policy in place of
borrow/merge). -/
def BNode.isEmptyN : BNode K V → Bool
  | .leaf items => items.isEmpty
  | .internal cs => cs.isEmpty

mutual

/-- Modelled from the spec: deletion (spec sections 4.2 and 4.3): descend to
the leaf covering the key, splice the entry out, and report whether an entry
was removed. Rebalancing is not required by the spec (section 9, under-fill
policy); a child whose subtree empties is dropped. -/
def BNode.del (k : K) : BNode K V → (BNode K V × Bool)
  | .leaf items => (.leaf (eraseKey k items), containsKey k items)
  | .internal cs =>
    let r := BNode.delChildren k cs
    (.internal r.1, r.2)

/-- Modelled from the spec: lookup-mode descent for deletion over the ordered
children; when the key exceeds every child's max key nothing changes. -/
def BNode.delChildren (k : K) : List (BNode K V) → (List (BNode K V) × Bool)
  | [] => ([], false)
  | c :: cs =>
    if leKeyB k c then
      let r := BNode.del k c
      ((if r.1.isEmptyN then [] else [r.1]) ++ cs, r.2)
    else
      let r := BNode.delChildren k cs
      (c :: r.1, r.2)

end

/-- Modelled from the spec: the return shape of an `editRange` callback
(`EditRangeResult` in `src/b+tree.d.ts`): an optional replacement value, an
optional break result, and a deletion directive. The field `brk?` models the
source field named after the stop directive. -/
structure EditDirective (V R : Type) where
  value? : Option V
  brk? : Option R
  del : Bool

/-- Modelled from the spec: whether a key lies in the scanned range
`[lo, hi)`, or `[lo, hi]` when `includeHigh` (spec section 4.6). -/
def inRangeB (lo hi : K) (includeHigh : Bool) (k : K) : Bool :=
  decide (lo ≤ k) && (decide (k < hi) || (decide (k = hi) && includeHigh))

/-- Modelled from the spec: the leaf-level loop of the range scan (spec
section 4.6), written on the flat entry list: entries below `lo` are skipped,
in-range entries trigger the callback with the running counter, and the first
entry beyond the range stops the scan. -/
def forItems (lo hi : K) (includeHigh : Bool)
    (onFound : K → V → Nat → Option R) : Nat → List (K × V) → (R ⊕ Nat)
  | c, [] => .inr c
  | c, (k, v) :: rest =>
    if k < lo then forItems lo hi includeHigh onFound c rest
    else if k < hi ∨ (k = hi ∧ includeHigh) then
      match onFound k v c with
      | some r => .inl r
      | none => forItems lo hi includeHigh onFound (c + 1) rest
    else .inr c

mutual

/-- Modelled from the spec: the read-only range scan over a subtree (spec
section 4.6, `forRange`): walk the entries in order, skip keys below `lo`,
invoke the callback on each in-range key threading the counter, stop either
on a `{break: R}` directive (`Sum.inl`) or when a key beyond the range is
reached (`Sum.inr` carrying the counter). -/
def BNode.forR (lo hi : K) (includeHigh : Bool)
    (onFound : K → V → Nat → Option R) (c : Nat) : BNode K V → (R ⊕ Nat)
  | .leaf items => forItems lo hi includeHigh onFound c items
  | .internal cs => BNode.forRChildren lo hi includeHigh onFound c cs

/-- Modelled from the spec: the read-only range scan threaded through an
internal node's children in order (spec section 4.6). -/
def BNode.forRChildren (lo hi : K) (includeHigh : Bool)
    (onFound : K → V → Nat → Option R) (c : Nat) :
    List (BNode K V) → (R ⊕ Nat)
  | [] => .inr c
  | n :: ns =>
    match BNode.forR lo hi includeHigh onFound c n with
    | .inl r => .inl r
    | .inr c' => BNode.forRChildren lo hi includeHigh onFound c' ns

end

/-- Modelled from the spec: the leaf-level loop of `editRange` (spec section
4.6), written on the flat entry list. For each in-range entry the callback's
directives are applied: `{value: x}` replaces only the current entry's value,
`{delete: true}` removes exactly the current entry, and `{break: R}` stops
the scan after applying the other directives and returns `R`. The result is
the edited list, the break-or-counter outcome, and the number of deletions. -/
def editItems (lo hi : K) (includeHigh : Bool)
    (onFound : K → V → Nat → EditDirective V R) :
    Nat → List (K × V) → (List (K × V) × (R ⊕ Nat) × Nat)
  | c, [] => ([], .inr c, 0)
  | c, (k, v) :: rest =>
    if k < lo then
      let r := editItems lo hi includeHigh onFound c rest
      ((k, v) :: r.1, r.2)
    else if k < hi ∨ (k = hi ∧ includeHigh) then
      let res := onFound k v c
      let keep := if res.del then [] else [(k, (res.value?).getD v)]
      let d0 : Nat := if res.del then 1 else 0
      match res.brk? with
      | some r => (keep ++ rest, .inl r, d0)
      | none =>
        let r := editItems lo hi includeHigh onFound (c + 1) rest
        (keep ++ r.1, r.2.1, d0 + r.2.2)
    else ((k, v) :: rest, .inr c, 0)

mutual

/-- Modelled from the spec: `editRange` over a subtree (spec section 4.6):
the scan visits the leaves in order applying the callback's directives; the
result is the updated node, the break-or-counter outcome, and the number of
deleted entries. In this pure model the copy-on-write un-sharing step of the
engine is the identity (spec section 9, O(1) clone design note: value
semantics is an equivalent implementation of the sharing protocol). -/
def BNode.editR (lo hi : K) (includeHigh : Bool)
    (onFound : K → V → Nat → EditDirective V R) (c : Nat) :
    BNode K V → (BNode K V × (R ⊕ Nat) × Nat)
  | .leaf items =>
    let r := editItems lo hi includeHigh onFound c items
    (.leaf r.1, r.2)
  | .internal cs =>
    let r := BNode.editRChildren lo hi includeHigh onFound c cs
    (.internal r.1, r.2)

/-- Modelled from the spec: `editRange` threaded through an internal node's
children in order; a child whose subtree is emptied by deletions is dropped
(spec section 4.6, deferred rebalancing). -/
def BNode.editRChildren (lo hi : K) (includeHigh : Bool)
    (onFound : K → V → Nat → EditDirective V R) (c : Nat) :
    List (BNode K V) → (List (BNode K V) × (R ⊕ Nat) × Nat)
  | [] => ([], .inr c, 0)
  | n :: ns =>
    let r := BNode.editR lo hi includeHigh onFound c n
    let keep := if r.1.isEmptyN then [] else [r.1]
    match r.2.1 with
    | .inl rr => (keep ++ ns, .inl rr, r.2.2)
    | .inr c' =>
      let rs := BNode.editRChildren lo hi includeHigh onFound c' ns
      (keep ++ rs.1, rs.2.1, r.2.2 + rs.2.2)

end

end NodeModel

section TreeModel

variable {K V : Type} [LinearOrder K] {R : Type}

/-- Modelled from the spec: the tree facade (spec section 3): root reference,
size (count of key-value pairs), the branching factor `maxNodeSize`, and the
frozen flag. The caller-supplied comparator is carried by the `LinearOrder`
instance on `K`. -/
structure BTree (K V : Type) where
  root : BNode K V
  size : Nat
  maxNodeSize : Nat
  frozen : Bool

/-- Modelled from the spec: clamping of the requested branching factor by the
constructor, per the declaration's doc comment (`src/b+tree.d.ts` lines
114-122): "Must be in range 4..256. If undefined or <4 then default is used;
if >256 then 256." The default, which the spec puts "around 32-64", is
modelled as 32. -/
def clampNodeSize : Option Nat → Nat
  | none => 32
  | some m => if 4 ≤ m then min m 256 else 32

/-- Modelled from the spec: a freshly constructed empty tree (spec section
4.4): the root is an empty leaf and the size is zero. -/
def BTree.mkEmpty (M? : Option Nat) : BTree K V :=
  ⟨.leaf [], 0, clampNodeSize M?, false⟩

/-- Modelled from the spec: facade lookup, `get(k)` (spec section 4.4):
descend to the leaf and return the value, or the absent sentinel `none`. -/
def BTree.get (t : BTree K V) (k : K) : Option V := t.root.get k

/-- Modelled from the spec: `has(k)` (spec section 4.4): as `get` but returns
presence. -/
def BTree.has (t : BTree K V) (k : K) : Bool := (t.get k).isSome

/-- Modelled from the spec: `set(k, v, overwrite)` (spec section 4.4):
insert or overwrite, adopt a fresh root when the old root splits, update the
size, and return whether a new entry was added. -/
def BTree.set (t : BTree K V) (k : K) (v : V) (ow : Bool) : BTree K V × Bool :=
  let r := t.root.set t.maxNodeSize k v ow
  let root' := match r.right? with
    | none => r.node
    | some rn => .internal [r.node, rn]
  ({ t with root := root', size := t.size + (if r.added then 1 else 0) },
   r.added)

/-- Modelled from the spec: root adoption after a deletion (spec section
4.4): an internal root that collapsed to a single child is replaced by that
child, and a fully emptied root becomes an empty leaf. -/
def collapseRoot : BNode K V → BNode K V
  | .internal [c] => c
  | .internal [] => .leaf []
  | n => n

/-- Modelled from the spec: `delete(k)` (spec section 4.4): splice the entry
out of its leaf, update the size, adopt a collapsed root, and return whether
an entry was removed. -/
def BTree.delete (t : BTree K V) (k : K) : BTree K V × Bool :=
  let r := t.root.del k
  ({ t with root := collapseRoot r.1,
            size := t.size - (if r.2 then 1 else 0) }, r.2)

/-- Modelled from the spec: `clear()` (spec section 4.4): replace the root
with an empty leaf and reset the size. -/
def BTree.clear (t : BTree K V) : BTree K V :=
  { t with root := .leaf [], size := 0 }

/-- Modelled from the spec: `toArray()` (spec section 4.4): the in-order
materialisation of the contents. -/
def BTree.toArray (t : BTree K V) : List (K × V) := t.root.toList

/-- Modelled from the spec: the pair sequence produced by the `entries()`
cursor (spec section 4.5): the cursor starts at the leftmost leaf and emits
each pair in order, ascending out of an exhausted leaf, which yields exactly
the in-order traversal. -/
def BTree.entriesList (t : BTree K V) : List (K × V) := t.root.toList

/-- Modelled from the spec: `minKey()` (spec section 4.4): the lowest key, or
`undefined = none` on an empty tree. -/
def BTree.minKey (t : BTree K V) : Option K := (keysOfList t.root.toList).head?

/-- Modelled from the spec: `maxKey()` (spec section 4.4): the highest key,
or `undefined = none` on an empty tree. -/
def BTree.maxKey (t : BTree K V) : Option K := t.root.maxKeyO

/-- Modelled from the spec: `clone()` (spec section 4.4): an O(1) logical
copy sharing the comparator and branching factor. The shared-bit protocol of
the source is modelled by value semantics, which the spec's design notes
(section 9, O(1) clone) name as an equivalent implementation in a host that
forbids aliased mutation; a clone made of a frozen tree is a fresh unfrozen
facade. -/
def BTree.clone (t : BTree K V) : BTree K V :=
  { root := t.root, size := t.size, maxNodeSize := t.maxNodeSize,
    frozen := false }

/-- Modelled from the spec: `setIfNotPresent(k, v)` (spec section 4.4),
expressible as `set` with `overwrite = false`. -/
def BTree.setIfNotPresent (t : BTree K V) (k : K) (v : V) : BTree K V × Bool :=
  t.set k v false

/-- Modelled from the spec: `changeIfPresent(k, v)` (spec section 4.4): a
guarded `set` that edits the value only when the key already exists and
returns whether it did. -/
def BTree.changeIfPresent (t : BTree K V) (k : K) (v : V) : BTree K V × Bool :=
  if (t.get k).isSome then ((t.set k v true).1, true) else (t, false)

/-- Modelled from the spec: `setRange(pairs)` (spec section 4.4): bulk apply
`set` in order, so that later duplicates overwrite earlier ones. -/
def BTree.setRange (t : BTree K V) (pairs : List (K × V)) : BTree K V :=
  pairs.foldl (fun acc p => (acc.set p.1 p.2 true).1) t

/-- Modelled from the spec: the constructor with an optional initial pair
list (spec section 6, Construction): the entries are applied in order to an
empty tree. -/
def BTree.ofEntries (entries : List (K × V)) (M? : Option Nat) : BTree K V :=
  (BTree.mkEmpty M?).setRange entries

/-- Modelled from the spec: `forRange(lo, hi, includeHigh, onFound, c0)`
(spec section 4.6): scan the range in ascending key order, returning either
the callback's break value or the final counter. -/
def BTree.forRange (t : BTree K V) (lo hi : K) (includeHigh : Bool)
    (onFound : K → V → Nat → Option R) (c0 : Nat) : R ⊕ Nat :=
  t.root.forR lo hi includeHigh onFound c0

/-- Modelled from the spec: `editRange(lo, hi, includeHigh, onFound, c0)`
(spec section 4.6): scan the range applying the callback's directives, with
the size counter updated per deletion, returning the new tree together with
the break value or final counter. -/
def BTree.editRange (t : BTree K V) (lo hi : K) (includeHigh : Bool)
    (onFound : K → V → Nat → EditDirective V R) (c0 : Nat) :
    BTree K V × (R ⊕ Nat) :=
  let r := t.root.editR lo hi includeHigh onFound c0
  ({ t with root := collapseRoot r.1, size := t.size - r.2.2 }, r.2.1)

/-- Modelled from the spec: `deleteRange(lo, hi, includeHigh)` (spec section
4.6): `editRange` whose callback always deletes; returns the count deleted. -/
def BTree.deleteRange (t : BTree K V) (lo hi : K) (includeHigh : Bool) :
    BTree K V × Nat :=
  let r := t.editRange lo hi includeHigh
    (fun _ _ _ => (⟨none, none, true⟩ : EditDirective V Empty)) 0
  (r.1, match r.2 with | .inl e => e.elim | .inr c => c)

/-- Modelled from the spec: the error raised by a mutating call on a frozen
tree (spec section 7, FrozenMutation). -/
inductive TreeError where
  | frozenMutation
deriving DecidableEq

/-- Modelled from the spec: `freeze()` (spec section 4.4): set the flag that
makes every mutating operation fail. -/
def BTree.freeze (t : BTree K V) : BTree K V := { t with frozen := true }

/-- Modelled from the spec: `unfreeze()` (spec section 4.4): reverse the
effect of `freeze`. -/
def BTree.unfreeze (t : BTree K V) : BTree K V := { t with frozen := false }

/-- Modelled from the spec: the frozen guard on `set` (spec section 5): a
frozen tree rejects the mutator by failing the call. -/
def BTree.setF (t : BTree K V) (k : K) (v : V) (ow : Bool) :
    Except TreeError (BTree K V × Bool) :=
  if t.frozen then .error .frozenMutation else .ok (t.set k v ow)

/-- Modelled from the spec: the frozen guard on `setIfNotPresent`. -/
def BTree.setIfNotPresentF (t : BTree K V) (k : K) (v : V) :
    Except TreeError (BTree K V × Bool) :=
  if t.frozen then .error .frozenMutation else .ok (t.setIfNotPresent k v)

/-- Modelled from the spec: the frozen guard on `changeIfPresent`. -/
def BTree.changeIfPresentF (t : BTree K V) (k : K) (v : V) :
    Except TreeError (BTree K V × Bool) :=
  if t.frozen then .error .frozenMutation else .ok (t.changeIfPresent k v)

/-- Modelled from the spec: the frozen guard on `delete`. -/
def BTree.deleteF (t : BTree K V) (k : K) :
    Except TreeError (BTree K V × Bool) :=
  if t.frozen then .error .frozenMutation else .ok (t.delete k)

/-- Modelled from the spec: the frozen guard on `clear`. -/
def BTree.clearF (t : BTree K V) : Except TreeError (BTree K V) :=
  if t.frozen then .error .frozenMutation else .ok t.clear

/-- Modelled from the spec: the frozen guard on `setRange`. -/
def BTree.setRangeF (t : BTree K V) (pairs : List (K × V)) :
    Except TreeError (BTree K V) :=
  if t.frozen then .error .frozenMutation else .ok (t.setRange pairs)

/-- Modelled from the spec: the frozen guard on `editRange`. -/
def BTree.editRangeF (t : BTree K V) (lo hi : K) (includeHigh : Bool)
    (onFound : K → V → Nat → EditDirective V R) (c0 : Nat) :
    Except TreeError (BTree K V × (R ⊕ Nat)) :=
  if t.frozen then .error .frozenMutation
  else .ok (t.editRange lo hi includeHigh onFound c0)

/-- Modelled from the spec: the frozen guard on `deleteRange`. -/
def BTree.deleteRangeF (t : BTree K V) (lo hi : K) (includeHigh : Bool) :
    Except TreeError (BTree K V × Nat) :=
  if t.frozen then .error .frozenMutation
  else .ok (t.deleteRange lo hi includeHigh)

/-- Modelled from the spec: the mutating operations of the facade (spec
section 6, Write operations), reified so that a whole sequence of mutations
can be quantified over. -/
inductive TreeOp (K V : Type) where
  | setOp (k : K) (v : V) (ow : Bool)
  | delOp (k : K)
  | clearOp
  | setRangeOp (pairs : List (K × V))
  | setIfNotPresentOp (k : K) (v : V)
  | changeIfPresentOp (k : K) (v : V)
  | deleteRangeOp (lo hi : K) (includeHigh : Bool)
  | editRangeOp (lo hi : K) (includeHigh : Bool)
      (onFound : K → V → Nat → EditDirective V Nat) (c0 : Nat)

/-- Modelled from the spec: the effect of one reified mutating operation. -/
def applyOp (t : BTree K V) : TreeOp K V → BTree K V
  | .setOp k v ow => (t.set k v ow).1
  | .delOp k => (t.delete k).1
  | .clearOp => t.clear
  | .setRangeOp pairs => t.setRange pairs
  | .setIfNotPresentOp k v => (t.setIfNotPresent k v).1
  | .changeIfPresentOp k v => (t.changeIfPresent k v).1
  | .deleteRangeOp lo hi inc => (t.deleteRange lo hi inc).1
  | .editRangeOp lo hi inc f c0 => (t.editRange lo hi inc f c0).1

/-- Modelled from the spec: a mutation addressed at one of the two trees of a
clone pair (spec section 8, property 7): the flag `false` targets the
original and `true` targets the clone. -/
def applySide (p : BTree K V × BTree K V) (o : Bool × TreeOp K V) :
    BTree K V × BTree K V :=
  if o.1 then (p.1, applyOp p.2 o.2) else (applyOp p.1 o.2, p.2)

end TreeModel


section ListLemmas

variable {K V : Type} [LinearOrder K] {R : Type}

omit [LinearOrder K] in
theorem keysOfList_append (l₁ l₂ : List (K × V)) :
    keysOfList (l₁ ++ l₂) = keysOfList l₁ ++ keysOfList l₂ :=
  List.map_append _ _ _

theorem lookupKey_eq_none_iff (k : K) (l : List (K × V)) :
    lookupKey k l = none ↔ k ∉ keysOfList l := by
  induction l with
  | nil => simp [lookupKey, keysOfList]
  | cons p rest ih =>
    obtain ⟨k', v'⟩ := p
    by_cases hk : k' = k
    · subst hk
      simp [lookupKey, keysOfList]
    · simp only [lookupKey, if_neg hk, keysOfList, List.map_cons,
        List.mem_cons, ih]
      constructor
      · rintro hnm (h | h)
        · exact hk h.symm
        · exact hnm h
      · intro hnm h
        exact hnm (Or.inr h)

theorem containsKey_iff_mem (k : K) (l : List (K × V)) :
    containsKey k l = true ↔ k ∈ keysOfList l := by
  rw [containsKey, Option.isSome_iff_ne_none, ne_eq, lookupKey_eq_none_iff,
    not_not]

theorem containsKey_eq_false_iff (k : K) (l : List (K × V)) :
    containsKey k l = false ↔ k ∉ keysOfList l := by
  rw [← lookupKey_eq_none_iff, containsKey]
  cases lookupKey k l <;> simp

theorem lookupKey_append (k : K) (l₁ l₂ : List (K × V)) :
    lookupKey k (l₁ ++ l₂) = (lookupKey k l₁).or (lookupKey k l₂) := by
  induction l₁ with
  | nil => simp [lookupKey]
  | cons p rest ih =>
    obtain ⟨k', v'⟩ := p
    by_cases hk : k' = k <;> simp [lookupKey, hk, ih]

theorem lookupKey_insertPair_self (k : K) (v : V) (l : List (K × V)) :
    lookupKey k (insertPair k v l) = some v := by
  induction l with
  | nil => simp [insertPair, lookupKey]
  | cons p rest ih =>
    obtain ⟨k', v'⟩ := p
    rcases lt_trichotomy k k' with h | h | h
    · simp [insertPair, h, lookupKey]
    · simp [insertPair, h.symm, lt_irrefl, lookupKey]
    · have h1 : ¬k < k' := not_lt.2 h.le
      simp only [insertPair, if_neg h1, if_pos h, lookupKey,
        if_neg (ne_of_lt h), ih]

theorem lookupKey_insertPair_ne (k₀ k : K) (v : V) (l : List (K × V))
    (h : k₀ ≠ k) : lookupKey k₀ (insertPair k v l) = lookupKey k₀ l := by
  induction l with
  | nil => simp [insertPair, lookupKey, Ne.symm h]
  | cons p rest ih =>
    obtain ⟨k', v'⟩ := p
    rcases lt_trichotomy k k' with hc | hc | hc
    · simp [insertPair, hc, lookupKey, Ne.symm h]
    · subst hc
      simp [lookupKey, insertPair, lt_irrefl, Ne.symm h]
    · have h1 : ¬k < k' := not_lt.2 hc.le
      simp only [insertPair, if_neg h1, if_pos hc, lookupKey, ih]

theorem containsKey_insertPair_self (k : K) (v : V) (l : List (K × V)) :
    containsKey k (insertPair k v l) = true := by
  simp [containsKey, lookupKey_insertPair_self]

theorem sorted_cons_keys {p : K × V} {l : List (K × V)}
    (hs : List.Sorted (· < ·) (keysOfList (p :: l))) :
    List.Sorted (· < ·) (keysOfList l) ∧ ∀ q ∈ l, p.1 < q.1 := by
  simp only [keysOfList, List.map_cons, List.sorted_cons] at hs
  refine ⟨hs.2, fun q hq => hs.1 q.1 ?_⟩
  exact List.mem_map_of_mem Prod.fst hq

theorem length_insertPair (k : K) (v : V) (l : List (K × V))
    (hs : List.Sorted (· < ·) (keysOfList l)) :
    (insertPair k v l).length
      = if containsKey k l then l.length else l.length + 1 := by
  induction l with
  | nil => simp [insertPair, containsKey, lookupKey]
  | cons p rest ih =>
    obtain ⟨k', v'⟩ := p
    obtain ⟨hrest, habove⟩ := sorted_cons_keys hs
    rcases lt_trichotomy k k' with hc | hc | hc
    · have hnc : containsKey k ((k', v') :: rest) = false := by
        rw [containsKey_eq_false_iff]
        simp only [keysOfList, List.map_cons, List.mem_cons]
        rintro (h | h)
        · exact absurd h (ne_of_lt hc)
        · obtain ⟨q, hq, hq1⟩ := List.mem_map.1 h
          exact absurd (hq1 ▸ habove q hq) (not_lt.2 (hc.le.trans (le_of_eq rfl)))
      simp [insertPair, hc, hnc]
    · subst hc
      have hcn : containsKey k ((k, v') :: rest) = true := by
        rw [containsKey_iff_mem]; simp [keysOfList]
      simp [insertPair, lt_irrefl, hcn]
    · have h1 : ¬k < k' := not_lt.2 hc.le
      have hck : containsKey k ((k', v') :: rest) = containsKey k rest := by
        simp [containsKey, lookupKey, ne_of_lt hc]
      simp only [insertPair, if_neg h1, if_pos hc, List.length_cons,
        ih hrest, hck]
      by_cases h : containsKey k rest <;> simp [h]

theorem mem_insertPair {q : K × V} {k : K} {v : V} {l : List (K × V)}
    (h : q ∈ insertPair k v l) : q = (k, v) ∨ q ∈ l := by
  induction l with
  | nil => simpa [insertPair] using h
  | cons p rest ih =>
    obtain ⟨k', v'⟩ := p
    rcases lt_trichotomy k k' with hc | hc | hc
    · simp only [insertPair, if_pos hc, List.mem_cons] at h
      rcases h with h | h | h
      · exact Or.inl h
      · exact Or.inr (by simp [h])
      · exact Or.inr (List.mem_cons_of_mem _ h)
    · subst hc
      simp only [insertPair, lt_irrefl, ite_false, List.mem_cons] at h
      rcases h with h | h
      · exact Or.inl h
      · exact Or.inr (List.mem_cons_of_mem _ h)
    · have h1 : ¬k < k' := not_lt.2 hc.le
      simp only [insertPair, if_neg h1, if_pos hc, List.mem_cons] at h
      rcases h with h | h
      · exact Or.inr (by simp [h])
      · rcases ih h with h' | h'
        · exact Or.inl h'
        · exact Or.inr (List.mem_cons_of_mem _ h')

theorem sorted_insertPair (k : K) (v : V) (l : List (K × V))
    (hs : List.Sorted (· < ·) (keysOfList l)) :
    List.Sorted (· < ·) (keysOfList (insertPair k v l)) := by
  induction l with
  | nil => simp [insertPair, keysOfList]
  | cons p rest ih =>
    obtain ⟨k', v'⟩ := p
    obtain ⟨hrest, habove⟩ := sorted_cons_keys hs
    rcases lt_trichotomy k k' with hc | hc | hc
    · simp only [insertPair, if_pos hc, keysOfList, List.map_cons,
        List.sorted_cons]
      refine ⟨?_, by simpa [keysOfList] using hs⟩
      intro b hb
      simp only [List.mem_cons] at hb
      rcases hb with h | h
      · exact h ▸ hc
      · obtain ⟨q, hq, hq1⟩ := List.mem_map.1 h
        exact hq1 ▸ hc.trans (habove q hq)
    · subst hc
      have hrw : insertPair k v ((k, v') :: rest) = (k, v) :: rest := by
        simp [insertPair]
      rw [hrw]
      simp only [keysOfList, List.map_cons, List.sorted_cons]
      refine ⟨fun b hb => ?_, hrest⟩
      obtain ⟨q, hq, hq1⟩ := List.mem_map.1 hb
      exact hq1 ▸ habove q hq
    · have h1 : ¬k < k' := not_lt.2 hc.le
      simp only [insertPair, if_neg h1, if_pos hc, keysOfList, List.map_cons,
        List.sorted_cons]
      refine ⟨fun b hb => ?_, ih hrest⟩
      obtain ⟨q, hq, hq1⟩ := List.mem_map.1 hb
      subst hq1
      rcases mem_insertPair hq with h' | h'
      · rw [h']; exact hc
      · exact habove q h'

end ListLemmas

section ListLemmasB

variable {K V : Type} [LinearOrder K] {R : Type}

theorem insertPair_append_left (k : K) (v : V) (l₁ l₂ : List (K × V))
    (h : ∀ p ∈ l₂, k < p.1) :
    insertPair k v (l₁ ++ l₂) = insertPair k v l₁ ++ l₂ := by
  induction l₁ with
  | nil =>
    cases l₂ with
    | nil => rfl
    | cons p rest =>
      simp only [List.nil_append, insertPair, if_pos (h p (by simp))]
      rfl
  | cons p rest ih =>
    obtain ⟨k', v'⟩ := p
    rcases lt_trichotomy k k' with hc | hc | hc
    · simp [insertPair, hc]
    · subst hc
      simp [insertPair]
    · have h1 : ¬k < k' := not_lt.2 hc.le
      simp [insertPair, h1, hc, ih]

theorem insertPair_append_right (k : K) (v : V) (l₁ l₂ : List (K × V))
    (h : ∀ p ∈ l₁, p.1 < k) :
    insertPair k v (l₁ ++ l₂) = l₁ ++ insertPair k v l₂ := by
  induction l₁ with
  | nil => rfl
  | cons p rest ih =>
    obtain ⟨k', v'⟩ := p
    have hk : k' < k := h (k', v') (by simp)
    have h1 : ¬k < k' := not_lt.2 hk.le
    simp only [List.cons_append, insertPair, if_neg h1, if_pos hk,
      List.cons.injEq, true_and]
    exact ih fun p hp => h p (List.mem_cons_of_mem _ hp)

theorem eraseKey_sublist (k : K) (l : List (K × V)) :
    List.Sublist (eraseKey k l) l := by
  induction l with
  | nil => simp [eraseKey]
  | cons p rest ih =>
    obtain ⟨k', v'⟩ := p
    by_cases hk : k' = k
    · simp only [eraseKey, if_pos hk]
      exact List.sublist_cons_self _ _
    · simp only [eraseKey, if_neg hk]
      exact ih.cons₂ _

theorem sorted_eraseKey (k : K) (l : List (K × V))
    (hs : List.Sorted (· < ·) (keysOfList l)) :
    List.Sorted (· < ·) (keysOfList (eraseKey k l)) :=
  List.Pairwise.sublist (List.Sublist.map Prod.fst (eraseKey_sublist k l)) hs

theorem eraseKey_of_not_mem (k : K) (l : List (K × V))
    (h : k ∉ keysOfList l) : eraseKey k l = l := by
  induction l with
  | nil => rfl
  | cons p rest ih =>
    obtain ⟨k', v'⟩ := p
    simp only [keysOfList, List.map_cons, List.mem_cons] at h
    push_neg at h
    rw [eraseKey, if_neg (Ne.symm h.1), ih (by simpa [keysOfList] using h.2)]

theorem lookupKey_eraseKey_self (k : K) (l : List (K × V))
    (hs : List.Sorted (· < ·) (keysOfList l)) :
    lookupKey k (eraseKey k l) = none := by
  induction l with
  | nil => rfl
  | cons p rest ih =>
    obtain ⟨k', v'⟩ := p
    obtain ⟨hrest, habove⟩ := sorted_cons_keys hs
    by_cases hk : k' = k
    · subst hk
      simp only [eraseKey, if_pos rfl]
      rw [lookupKey_eq_none_iff]
      intro hmem
      obtain ⟨q, hq, hq1⟩ := List.mem_map.1 hmem
      exact absurd (hq1 ▸ habove q hq) (lt_irrefl _)
    · simp only [eraseKey, if_neg hk, lookupKey, if_neg hk]
      exact ih hrest

theorem lookupKey_eraseKey_ne (k₀ k : K) (l : List (K × V)) (h : k₀ ≠ k) :
    lookupKey k₀ (eraseKey k l) = lookupKey k₀ l := by
  induction l with
  | nil => rfl
  | cons p rest ih =>
    obtain ⟨k', v'⟩ := p
    by_cases hk : k' = k
    · subst hk
      simp [eraseKey, lookupKey, Ne.symm h]
    · by_cases hk0 : k' = k₀
      · simp [eraseKey, hk, lookupKey, hk0, h]
      · simp [eraseKey, hk, lookupKey, hk0, ih]

theorem length_eraseKey (k : K) (l : List (K × V)) :
    (eraseKey k l).length
      = if containsKey k l then l.length - 1 else l.length := by
  induction l with
  | nil => simp [eraseKey, containsKey, lookupKey]
  | cons p rest ih =>
    obtain ⟨k', v'⟩ := p
    by_cases hk : k' = k
    · subst hk
      have : containsKey k' ((k', v') :: rest) = true := by
        rw [containsKey_iff_mem]; simp [keysOfList]
      simp [eraseKey, this]
    · have hck : containsKey k ((k', v') :: rest) = containsKey k rest := by
        simp [containsKey, lookupKey, hk]
      simp only [eraseKey, if_neg hk, List.length_cons, ih, hck]
      by_cases h : containsKey k rest
      · have : k ∈ keysOfList rest := (containsKey_iff_mem k rest).1 h
        have hlen : 1 ≤ rest.length := by
          cases rest with
          | nil => simp [keysOfList] at this
          | cons q qs => simp
        simp [h]
        omega
      · simp [h]

theorem eraseKey_append_right (k : K) (l₁ l₂ : List (K × V))
    (h : ∀ p ∈ l₂, p.1 ≠ k) :
    eraseKey k (l₁ ++ l₂) = eraseKey k l₁ ++ l₂ := by
  induction l₁ with
  | nil =>
    simp only [List.nil_append, eraseKey]
    exact eraseKey_of_not_mem k l₂ fun hmem => by
      obtain ⟨q, hq, hq1⟩ := List.mem_map.1 hmem
      exact h q hq hq1
  | cons p rest ih =>
    obtain ⟨k', v'⟩ := p
    by_cases hk : k' = k <;> simp [eraseKey, hk, ih]

theorem eraseKey_append_left (k : K) (l₁ l₂ : List (K × V))
    (h : ∀ p ∈ l₁, p.1 ≠ k) :
    eraseKey k (l₁ ++ l₂) = l₁ ++ eraseKey k l₂ := by
  induction l₁ with
  | nil => rfl
  | cons p rest ih =>
    obtain ⟨k', v'⟩ := p
    have : k' ≠ k := h (k', v') (by simp)
    simp only [List.cons_append, eraseKey, if_neg this, List.cons.injEq,
      true_and]
    exact ih fun p hp => h p (List.mem_cons_of_mem _ hp)

theorem containsKey_append (k : K) (l₁ l₂ : List (K × V)) :
    containsKey k (l₁ ++ l₂) = (containsKey k l₁ || containsKey k l₂) := by
  simp only [containsKey, lookupKey_append]
  cases lookupKey k l₁ <;> simp [Option.or]

theorem sorted_le_getLast {l : List K} {m a : K}
    (hs : List.Sorted (· < ·) l) (hm : l.getLast? = some m) (ha : a ∈ l) :
    a ≤ m := by
  induction l with
  | nil => simp at ha
  | cons b rest ih =>
    cases rest with
    | nil =>
      simp only [List.getLast?_singleton, Option.some.injEq] at hm
      subst hm
      have hab : a = b := by simpa using ha
      exact le_of_eq hab
    | cons c cs =>
      rw [List.getLast?_cons_cons] at hm
      have hs' := (List.sorted_cons.1 hs).2
      rcases List.mem_cons.1 ha with h | h
      · subst h
        have hmem : m ∈ c :: cs := List.mem_of_mem_getLast? hm
        exact ((List.sorted_cons.1 hs).1 m hmem).le
      · exact ih hs' hm h

end ListLemmasB

section NodeLemmas

variable {K V : Type} [LinearOrder K] {R : Type}

theorem toListChildren_append (cs₁ cs₂ : List (BNode K V)) :
    BNode.toListChildren (cs₁ ++ cs₂)
      = BNode.toListChildren cs₁ ++ BNode.toListChildren cs₂ := by
  induction cs₁ with
  | nil => rfl
  | cons c rest ih => simp [BNode.toListChildren, ih]

theorem maxKeyO_eq_none_iff (n : BNode K V) :
    n.maxKeyO = none ↔ n.toList = [] := by
  rw [BNode.maxKeyO, List.getLast?_eq_none_iff]
  simp [keysOfList]

theorem toList_eq_nil_of_isEmptyN {n : BNode K V} (h : n.isEmptyN = true) :
    n.toList = [] := by
  cases n with
  | leaf items =>
    simp only [BNode.isEmptyN, List.isEmpty_iff] at h
    simp [BNode.toList, h]
  | internal cs =>
    simp only [BNode.isEmptyN, List.isEmpty_iff] at h
    simp [BNode.toList, h, BNode.toListChildren]

theorem keys_lt_of_leKeyB_true {k : K} {c : BNode K V} {rest : List (K × V)}
    (hle : leKeyB k c = true)
    (hs : List.Sorted (· < ·) (keysOfList (c.toList ++ rest))) :
    ∀ p ∈ rest, k < p.1 := by
  intro p hp
  rw [leKeyB] at hle
  rcases hm : c.maxKeyO with _ | m
  · rw [hm] at hle; cases hle
  · rw [hm] at hle
    have hkm : k ≤ m := of_decide_eq_true hle
    have hm' : (keysOfList c.toList).getLast? = some m := hm
    have hmem : m ∈ keysOfList c.toList := List.mem_of_mem_getLast? hm'
    rw [keysOfList_append] at hs
    have hcross := (List.pairwise_append.1 hs).2.2
    exact lt_of_le_of_lt hkm
      (hcross m hmem p.1 (List.mem_map_of_mem Prod.fst hp))

theorem keys_lt_of_leKeyB_false {k : K} {c : BNode K V}
    (hle : leKeyB k c = false)
    (hsc : List.Sorted (· < ·) (keysOfList c.toList)) :
    ∀ p ∈ c.toList, p.1 < k := by
  intro p hp
  rw [leKeyB] at hle
  rcases hm : c.maxKeyO with _ | m
  · rw [maxKeyO_eq_none_iff] at hm
    rw [hm] at hp
    cases hp
  · rw [hm] at hle
    have hmk : m < k := not_le.1 (of_decide_eq_false hle)
    have hm' : (keysOfList c.toList).getLast? = some m := hm
    exact lt_of_le_of_lt
      (sorted_le_getLast hsc hm' (List.mem_map_of_mem Prod.fst hp)) hmk

end NodeLemmas

section GetSpec

mutual

theorem BNode.get_spec {K V : Type} [LinearOrder K] (k : K) (n : BNode K V)
    (hs : List.Sorted (· < ·) (keysOfList n.toList)) :
    n.get k = lookupKey k n.toList := by
  cases n with
  | leaf items => rfl
  | internal cs =>
    rw [BNode.get, BNode.toList]
    exact BNode.getChildren_spec k cs (by rwa [BNode.toList] at hs)

theorem BNode.getChildren_spec {K V : Type} [LinearOrder K] (k : K)
    (cs : List (BNode K V))
    (hs : List.Sorted (· < ·) (keysOfList (BNode.toListChildren cs))) :
    BNode.getChildren k cs = lookupKey k (BNode.toListChildren cs) := by
  cases cs with
  | nil => rfl
  | cons c rest =>
    rw [BNode.getChildren, BNode.toListChildren]
    rw [BNode.toListChildren, keysOfList_append] at hs
    have hsc : List.Sorted (· < ·) (keysOfList c.toList) :=
      (List.pairwise_append.1 hs).1
    have hsr : List.Sorted (· < ·) (keysOfList (BNode.toListChildren rest)) :=
      (List.pairwise_append.1 hs).2.1
    by_cases hle : leKeyB k c
    · rw [if_pos hle, lookupKey_append]
      have habove : ∀ p ∈ BNode.toListChildren rest, k < p.1 :=
        keys_lt_of_leKeyB_true hle (by rwa [keysOfList_append])
      have hnone : lookupKey k (BNode.toListChildren rest) = none := by
        rw [lookupKey_eq_none_iff]
        intro hmem
        obtain ⟨q, hq, hq1⟩ := List.mem_map.1 hmem
        exact absurd (hq1 ▸ habove q hq) (lt_irrefl k)
      rw [BNode.get_spec k c hsc, hnone]
      cases lookupKey k c.toList <;> simp [Option.or]
    · rw [if_neg hle, lookupKey_append]
      have hbelow : ∀ p ∈ c.toList, p.1 < k :=
        keys_lt_of_leKeyB_false (by simpa using hle) hsc
      have hnone : lookupKey k c.toList = none := by
        rw [lookupKey_eq_none_iff]
        intro hmem
        obtain ⟨q, hq, hq1⟩ := List.mem_map.1 hmem
        exact absurd (hq1 ▸ hbelow q hq) (lt_irrefl k)
      rw [BNode.getChildren_spec k rest hsr, hnone]
      simp [Option.or]

end

end GetSpec

section SetListLemmas

variable {K V : Type} [LinearOrder K] {R : Type}

theorem containsKey_false_of_keys_gt {k : K} {l : List (K × V)}
    (h : ∀ p ∈ l, k < p.1) : containsKey k l = false := by
  rw [containsKey_eq_false_iff]
  intro hmem
  obtain ⟨q, hq, hq1⟩ := List.mem_map.1 hmem
  exact absurd (hq1 ▸ h q hq) (lt_irrefl k)

theorem containsKey_false_of_keys_lt {k : K} {l : List (K × V)}
    (h : ∀ p ∈ l, p.1 < k) : containsKey k l = false := by
  rw [containsKey_eq_false_iff]
  intro hmem
  obtain ⟨q, hq, hq1⟩ := List.mem_map.1 hmem
  exact absurd (hq1 ▸ h q hq) (lt_irrefl k)

theorem setList_of_not_contains {k : K} (ow : Bool) (v : V)
    {l : List (K × V)} (h : containsKey k l = false) :
    setList ow k v l = insertPair k v l := by
  cases ow <;> simp [setList, h]

theorem setList_append_left {k : K} (ow : Bool) (v : V)
    (l₁ l₂ : List (K × V)) (h : ∀ p ∈ l₂, k < p.1) :
    setList ow k v (l₁ ++ l₂) = setList ow k v l₁ ++ l₂ := by
  have h₂ : containsKey k l₂ = false := containsKey_false_of_keys_gt h
  cases ow with
  | true => simp [setList, insertPair_append_left k v l₁ l₂ h]
  | false =>
    simp only [setList, Bool.false_eq_true, if_false, containsKey_append, h₂,
      Bool.or_false]
    by_cases hc : containsKey k l₁ = true
    · simp [hc]
    · simp only [Bool.not_eq_true] at hc
      simp [hc, insertPair_append_left k v l₁ l₂ h]

theorem setList_append_right {k : K} (ow : Bool) (v : V)
    (l₁ l₂ : List (K × V)) (h : ∀ p ∈ l₁, p.1 < k) :
    setList ow k v (l₁ ++ l₂) = l₁ ++ setList ow k v l₂ := by
  have h₁ : containsKey k l₁ = false := containsKey_false_of_keys_lt h
  cases ow with
  | true => simp [setList, insertPair_append_right k v l₁ l₂ h]
  | false =>
    simp only [setList, Bool.false_eq_true, if_false, containsKey_append, h₁,
      Bool.false_or]
    by_cases hc : containsKey k l₂ = true
    · simp [hc]
    · simp only [Bool.not_eq_true] at hc
      simp [hc, insertPair_append_right k v l₁ l₂ h]

theorem sorted_setList (ow : Bool) (k : K) (v : V) (l : List (K × V))
    (hs : List.Sorted (· < ·) (keysOfList l)) :
    List.Sorted (· < ·) (keysOfList (setList ow k v l)) := by
  rw [setList]
  split
  · exact sorted_insertPair k v l hs
  · split
    · exact hs
    · exact sorted_insertPair k v l hs

theorem length_setList (ow : Bool) (k : K) (v : V) (l : List (K × V))
    (hs : List.Sorted (· < ·) (keysOfList l)) :
    (setList ow k v l).length
      = if containsKey k l then l.length else l.length + 1 := by
  rw [setList]
  split
  · exact length_insertPair k v l hs
  · split
    · simp [*]
    · rw [length_insertPair k v l hs]
      simp [*]

theorem lookupKey_setList_self (k : K) (v : V) (l : List (K × V)) :
    lookupKey k (setList true k v l) = some v := by
  simp [setList, lookupKey_insertPair_self]

end SetListLemmas

/-- Modelled from the spec: the structural constraint of the data model that
an internal node holds at least one child (spec section 3: internal capacity
lies in `[1, M]`), recursively. -/
inductive GoodShape {K V : Type} : BNode K V → Prop where
  | leaf (items : List (K × V)) : GoodShape (.leaf items)
  | internal (cs : List (BNode K V)) (hne : cs ≠ [])
      (hcs : ∀ c ∈ cs, GoodShape c) : GoodShape (.internal cs)

/-- Modelled from the spec: the contents contributed by an optional split-off
right sibling. -/
def sideList {K V : Type} : Option (BNode K V) → List (K × V)
  | none => []
  | some n => n.toList

section SetSpec

variable {K V : Type} [LinearOrder K]

theorem take_ne_nil_of_pos {α : Type} {l : List α} {j : Nat} (hl : l ≠ [])
    (hj : 1 ≤ j) : l.take j ≠ [] := by
  have h1 : 0 < l.length := List.length_pos.2 hl
  have : 0 < (l.take j).length := by
    rw [List.length_take]
    omega
  exact List.length_pos.1 this

theorem drop_ne_nil_of_lt {α : Type} {l : List α} {j : Nat}
    (hj : j < l.length) : l.drop j ≠ [] := by
  have : 0 < (l.drop j).length := by
    rw [List.length_drop]
    omega
  exact List.length_pos.1 this

mutual

theorem BNode.set_spec (M : Nat) (k : K) (v : V) (ow : Bool) (n : BNode K V)
    (hM : 1 ≤ M) (hs : List.Sorted (· < ·) (keysOfList n.toList))
    (hg : GoodShape n) :
    (n.set M k v ow).node.toList ++ sideList (n.set M k v ow).right?
        = setList ow k v n.toList
    ∧ (n.set M k v ow).added = !containsKey k n.toList
    ∧ GoodShape (n.set M k v ow).node
    ∧ (∀ rn, (n.set M k v ow).right? = some rn → GoodShape rn) := by
  cases n with
  | leaf items =>
    rw [BNode.toList] at hs ⊢
    rcases hl : lookupKey k items with _ | w
    · have hcon : containsKey k items = false := by simp [containsKey, hl]
      have hset : setList ow k v items = insertPair k v items :=
        setList_of_not_contains ow v hcon
      by_cases hlen : items.length < M
      · simp only [BNode.set, hl, if_pos hlen]
        refine ⟨?_, by simp [hcon], GoodShape.leaf _, by simp⟩
        simp [BNode.toList, sideList, hset]
      · have hitems : items.take ((M + 1) / 2) ++ items.drop ((M + 1) / 2)
            = items := List.take_append_drop _ _
        rcases hd : items.drop ((M + 1) / 2) with _ | ⟨p, ps⟩
        · simp only [BNode.set, hl, if_neg hlen, hd]
          have htake : items.take ((M + 1) / 2) = items := by
            rw [hd, List.append_nil] at hitems
            exact hitems
          refine ⟨?_, by simp [hcon], GoodShape.leaf _, by simp⟩
          simp [BNode.toList, sideList, hset, htake]
        · have hsplit : List.Sorted (· < ·)
              (keysOfList (items.take ((M + 1) / 2))
                ++ keysOfList (p :: ps)) := by
            rw [← keysOfList_append, ← hd, hitems]
            exact hs
          have hcross := (List.pairwise_append.1 hsplit).2.2
          by_cases hk : k < p.1
          · simp only [BNode.set, hl, if_neg hlen, hd, if_pos hk]
            refine ⟨?_, by simp [hcon], GoodShape.leaf _, ?_⟩
            · rw [BNode.toList, sideList, BNode.toList, hset]
              conv_rhs => rw [← hitems, hd]
              rw [insertPair_append_left k v _ _ ?_]
              intro q hq
              rcases List.mem_cons.1 hq with h | h
              · exact h ▸ hk
              · have hp1 : p.1 < q.1 := by
                  have hsps : List.Sorted (· < ·) (keysOfList (p :: ps)) :=
                    (List.pairwise_append.1 hsplit).2.1
                  obtain ⟨_, habove⟩ := sorted_cons_keys hsps
                  exact habove q h
                exact hk.trans hp1
            · intro rn hrn
              rw [Option.some_inj] at hrn
              exact hrn ▸ GoodShape.leaf _
          · simp only [BNode.set, hl, if_neg hlen, hd, if_neg hk]
            have hp1k : p.1 < k := by
              rcases lt_or_eq_of_le (not_lt.1 hk) with h | h
              · exact h
              · exfalso
                have : p.1 ∈ keysOfList items := by
                  rw [← hitems, keysOfList_append]
                  refine List.mem_append_right _ ?_
                  rw [hd]
                  simp [keysOfList]
                rw [containsKey_eq_false_iff] at hcon
                exact hcon (h ▸ this)
            refine ⟨?_, by simp [hcon], GoodShape.leaf _, ?_⟩
            · rw [BNode.toList, sideList, BNode.toList, hset]
              conv_rhs => rw [← hitems, hd]
              rw [insertPair_append_right k v _ _ ?_]
              intro q hq
              have : q.1 < p.1 := by
                refine hcross q.1 (List.mem_map_of_mem Prod.fst hq) p.1 ?_
                simp [keysOfList]
              exact this.trans hp1k
            · intro rn hrn
              rw [Option.some_inj] at hrn
              exact hrn ▸ GoodShape.leaf _
    · have hcon : containsKey k items = true := by simp [containsKey, hl]
      cases ow with
      | true =>
        simp only [BNode.set, hl, if_pos rfl]
        refine ⟨?_, by simp [hcon], GoodShape.leaf _, by simp⟩
        simp [BNode.toList, sideList, setList, hcon]
      | false =>
        simp only [BNode.set, hl]
        refine ⟨?_, by simp [hcon], GoodShape.leaf _, by simp⟩
        simp [BNode.toList, sideList, setList, hcon]
  | internal cs =>
    rcases hg with _ | ⟨_, hne, hcs⟩
    rw [BNode.toList] at hs ⊢
    obtain ⟨h1, h2, h3, h4⟩ := BNode.setChildren_spec M k v ow cs hM hne hs hcs
    by_cases hlen : (BNode.setChildren M k v ow cs).1.length ≤ M
    · simp only [BNode.set, if_pos hlen]
      exact ⟨by simpa [BNode.toList, sideList] using h1, h2,
        GoodShape.internal _ h3 h4, by simp⟩
    · simp only [BNode.set, if_neg hlen]
      push_neg at hlen
      have hjM : (M + 1) / 2 ≤ M := by omega
      have hjlt : (M + 1) / 2 < (BNode.setChildren M k v ow cs).1.length := by
        omega
    -- the two halves of the over-full children list
      refine ⟨?_, h2, ?_, ?_⟩
      · simp only [BNode.toList, sideList]
        rw [← toListChildren_append, List.take_append_drop]
        exact h1
      · refine GoodShape.internal _ (take_ne_nil_of_pos h3 (by omega)) ?_
        intro c hc
        exact h4 c (List.take_subset _ _ hc)
      · intro rn hrn
        rw [Option.some_inj] at hrn
        refine hrn ▸ GoodShape.internal _ (drop_ne_nil_of_lt hjlt) ?_
        intro c hc
        exact h4 c (List.drop_subset _ _ hc)

theorem BNode.setChildren_spec (M : Nat) (k : K) (v : V) (ow : Bool)
    (cs : List (BNode K V)) (hM : 1 ≤ M) (hne : cs ≠ [])
    (hs : List.Sorted (· < ·) (keysOfList (BNode.toListChildren cs)))
    (hg : ∀ c ∈ cs, GoodShape c) :
    BNode.toListChildren (BNode.setChildren M k v ow cs).1
        = setList ow k v (BNode.toListChildren cs)
    ∧ (BNode.setChildren M k v ow cs).2
        = !containsKey k (BNode.toListChildren cs)
    ∧ (BNode.setChildren M k v ow cs).1 ≠ []
    ∧ (∀ c' ∈ (BNode.setChildren M k v ow cs).1, GoodShape c') := by
  match cs with
  | [] => exact absurd rfl hne
  | [c] =>
    rw [BNode.toListChildren, BNode.toListChildren, List.append_nil] at hs ⊢
    obtain ⟨h1, h2, h3, h4⟩ := BNode.set_spec M k v ow c hM hs (hg c (by simp))
    simp only [BNode.setChildren]
    refine ⟨?_, h2, by simp, ?_⟩
    · rw [BNode.toListChildren]
      rcases hr : (BNode.set M k v ow c).right? with _ | rn
      · rw [hr, sideList] at h1
        simpa [BNode.toListChildren, Option.toList] using h1
      · rw [hr, sideList] at h1
        simpa [BNode.toListChildren, Option.toList] using h1
    · intro c' hc'
      rcases hr : (BNode.set M k v ow c).right? with _ | rn
      · rw [hr] at hc'
        simp only [Option.toList] at hc'
        rcases List.mem_cons.1 hc' with h | h
        · exact h ▸ h3
        · simp at h
      · rw [hr] at hc'
        simp only [Option.toList] at hc'
        rcases List.mem_cons.1 hc' with h | h
        · exact h ▸ h3
        · have h' : c' = rn := by simpa using h
          exact h' ▸ h4 rn hr
  | c :: c' :: cs' =>
    rw [BNode.toListChildren, keysOfList_append] at hs
    have hsc : List.Sorted (· < ·) (keysOfList c.toList) :=
      (List.pairwise_append.1 hs).1
    have hsr : List.Sorted (· < ·)
        (keysOfList (BNode.toListChildren (c' :: cs'))) :=
      (List.pairwise_append.1 hs).2.1
    by_cases hle : leKeyB k c
    · have habove : ∀ p ∈ BNode.toListChildren (c' :: cs'), k < p.1 :=
        keys_lt_of_leKeyB_true hle (by rwa [keysOfList_append])
      obtain ⟨h1, h2, h3, h4⟩ :=
        BNode.set_spec M k v ow c hM hsc (hg c (by simp))
      simp only [BNode.setChildren, if_pos hle]
      refine ⟨?_, ?_, by simp, ?_⟩
      · rw [BNode.toListChildren, BNode.toListChildren,
          setList_append_left ow v _ _ habove, ← h1]
        rcases (BNode.set M k v ow c).right? with _ | rn
        · simp [sideList, Option.toList, BNode.toListChildren]
        · simp [sideList, Option.toList, BNode.toListChildren,
            List.append_assoc]
      · rw [BNode.toListChildren, containsKey_append,
          containsKey_false_of_keys_gt habove, Bool.or_false]
        exact h2
      · intro cx hcx
        rcases List.mem_cons.1 hcx with h | h
        · exact h ▸ h3
        · rcases hr : (BNode.set M k v ow c).right? with _ | rn
          · rw [hr] at h
            simp only [Option.toList, List.nil_append] at h
            exact hg cx (List.mem_cons_of_mem _ h)
          · rw [hr] at h
            simp only [Option.toList] at h
            have h' : cx = rn ∨ cx = c' ∨ cx ∈ cs' := by simpa using h
            rcases h' with h' | h' | h'
            · exact h' ▸ h4 rn hr
            · exact hg cx (h' ▸ by simp)
            · exact hg cx (by simp [h'])
    · have hbelow : ∀ p ∈ c.toList, p.1 < k :=
        keys_lt_of_leKeyB_false (by simpa using hle) hsc
      obtain ⟨h1, h2, h3, h4⟩ := BNode.setChildren_spec M k v ow (c' :: cs')
        hM (by simp) hsr (fun x hx => hg x (List.mem_cons_of_mem _ hx))
      simp only [BNode.setChildren, if_neg hle]
      refine ⟨?_, ?_, by simp, ?_⟩
      · rw [BNode.toListChildren, BNode.toListChildren,
          setList_append_right ow v _ _ hbelow, h1]
      · rw [BNode.toListChildren, containsKey_append,
          containsKey_false_of_keys_lt hbelow, Bool.false_or]
        exact h2
      · intro cx hcx
        rcases List.mem_cons.1 hcx with h | h
        · exact h ▸ hg c (by simp)
        · exact h4 cx h

end

end SetSpec

section DelSpec

variable {K V : Type} [LinearOrder K]

mutual

theorem BNode.del_spec (k : K) (n : BNode K V)
    (hs : List.Sorted (· < ·) (keysOfList n.toList)) (hg : GoodShape n) :
    (n.del k).1.toList = eraseKey k n.toList
    ∧ (n.del k).2 = containsKey k n.toList
    ∧ ((n.del k).1.isEmptyN = true ∨ GoodShape (n.del k).1) := by
  cases n with
  | leaf items =>
    exact ⟨rfl, rfl, Or.inr (GoodShape.leaf _)⟩
  | internal cs =>
    rcases hg with _ | ⟨_, hne, hcs⟩
    rw [BNode.toList] at hs ⊢
    obtain ⟨h1, h2, h3⟩ := BNode.delChildren_spec k cs hs hcs
    simp only [BNode.del]
    refine ⟨by simpa [BNode.toList] using h1, h2, ?_⟩
    rcases hd : (BNode.delChildren k cs).1 with _ | ⟨c, cs'⟩
    · exact Or.inl (by simp [BNode.isEmptyN])
    · refine Or.inr (GoodShape.internal _ (by simp) ?_)
      intro c' hc'
      exact h3 c' (hd ▸ hc')

theorem BNode.delChildren_spec (k : K) (cs : List (BNode K V))
    (hs : List.Sorted (· < ·) (keysOfList (BNode.toListChildren cs)))
    (hg : ∀ c ∈ cs, GoodShape c) :
    BNode.toListChildren (BNode.delChildren k cs).1
        = eraseKey k (BNode.toListChildren cs)
    ∧ (BNode.delChildren k cs).2 = containsKey k (BNode.toListChildren cs)
    ∧ (∀ c' ∈ (BNode.delChildren k cs).1, GoodShape c') := by
  match cs with
  | [] =>
    refine ⟨rfl, rfl, ?_⟩
    intro c' hc'
    simp [BNode.delChildren] at hc'
  | c :: rest =>
    rw [BNode.toListChildren, keysOfList_append] at hs
    have hsc : List.Sorted (· < ·) (keysOfList c.toList) :=
      (List.pairwise_append.1 hs).1
    have hsr : List.Sorted (· < ·)
        (keysOfList (BNode.toListChildren rest)) :=
      (List.pairwise_append.1 hs).2.1
    by_cases hle : leKeyB k c
    · have habove : ∀ p ∈ BNode.toListChildren rest, k < p.1 :=
        keys_lt_of_leKeyB_true hle (by rwa [keysOfList_append])
      obtain ⟨h1, h2, h3⟩ := BNode.del_spec k c hsc (hg c (by simp))
      simp only [BNode.delChildren, if_pos hle]
      refine ⟨?_, ?_, ?_⟩
      · rw [BNode.toListChildren, toListChildren_append,
          eraseKey_append_right k _ _ (fun p hp => (habove p hp).ne')]
        by_cases he : (BNode.del k c).1.isEmptyN
        · rw [if_pos he]
          have : (BNode.del k c).1.toList = [] := toList_eq_nil_of_isEmptyN he
          rw [← h1, this]
          rfl
        · rw [if_neg he, ← h1]
          simp [BNode.toListChildren]
      · rw [BNode.toListChildren, containsKey_append,
          containsKey_false_of_keys_gt habove, Bool.or_false]
        exact h2
      · intro c' hc'
        rcases List.mem_append.1 hc' with h | h
        · by_cases he : (BNode.del k c).1.isEmptyN
          · rw [if_pos he] at h
            simp at h
          · rw [if_neg he] at h
            have : c' = (BNode.del k c).1 := by simpa using h
            rcases h3 with h3 | h3
            · exact absurd h3 (by simpa using he)
            · exact this ▸ h3
        · exact hg c' (List.mem_cons_of_mem _ h)
    · have hbelow : ∀ p ∈ c.toList, p.1 < k :=
        keys_lt_of_leKeyB_false (by simpa using hle) hsc
      obtain ⟨h1, h2, h3⟩ := BNode.delChildren_spec k rest hsr
        (fun x hx => hg x (List.mem_cons_of_mem _ hx))
      simp only [BNode.delChildren, if_neg hle]
      refine ⟨?_, ?_, ?_⟩
      · rw [BNode.toListChildren, BNode.toListChildren,
          eraseKey_append_left k _ _ (fun p hp => (hbelow p hp).ne), h1]
      · rw [BNode.toListChildren, containsKey_append,
          containsKey_false_of_keys_lt hbelow, Bool.false_or]
        exact h2
      · intro c' hc'
        rcases List.mem_cons.1 hc' with h | h
        · exact h ▸ hg c (by simp)
        · exact h3 c' h

end

end DelSpec

section FacadeSpec

variable {K V : Type} [LinearOrder K] {R : Type}

/-- Modelled from the spec: the facade invariants (spec section 3,
Invariants): keys of the in-order contents strictly ascending (1), the
structural shape constraint on internal nodes, the size bookkeeping (4), and
the clamped branching factor. -/
def Valid (t : BTree K V) : Prop :=
  List.Sorted (· < ·) (keysOfList t.root.toList)
  ∧ GoodShape t.root
  ∧ t.size = t.root.toList.length
  ∧ 4 ≤ t.maxNodeSize ∧ t.maxNodeSize ≤ 256

theorem toList_collapseRoot (n : BNode K V) :
    (collapseRoot n).toList = n.toList := by
  cases n with
  | leaf items => rfl
  | internal cs =>
    cases cs with
    | nil => simp [collapseRoot, BNode.toList, BNode.toListChildren]
    | cons c cs' =>
      cases cs' with
      | nil => simp [collapseRoot, BNode.toList, BNode.toListChildren]
      | cons c' cs'' => rfl

theorem clampNodeSize_bounds (M? : Option Nat) :
    4 ≤ clampNodeSize M? ∧ clampNodeSize M? ≤ 256 := by
  cases M? with
  | none => simp [clampNodeSize]
  | some m =>
    simp only [clampNodeSize]
    by_cases h : 4 ≤ m
    · rw [if_pos h]
      omega
    · rw [if_neg h]
      omega

theorem BTree.get_lookup (t : BTree K V) (k : K) (h : Valid t) :
    t.get k = lookupKey k t.toArray :=
  BNode.get_spec k t.root h.1

theorem BTree.has_contains (t : BTree K V) (k : K) (h : Valid t) :
    t.has k = containsKey k t.toArray := by
  rw [BTree.has, BTree.get_lookup t k h, containsKey]

theorem BTree.set_facade (t : BTree K V) (k : K) (v : V) (ow : Bool)
    (h : Valid t) :
    (t.set k v ow).1.toArray = setList ow k v t.toArray
    ∧ (t.set k v ow).2 = !containsKey k t.toArray
    ∧ Valid (t.set k v ow).1 := by
  obtain ⟨hs, hg, hsz, hM4, hM256⟩ := h
  have hM : 1 ≤ t.maxNodeSize := by omega
  obtain ⟨h1, h2, h3, h4⟩ := BNode.set_spec t.maxNodeSize k v ow t.root hM hs hg
  have hroot : (t.set k v ow).1.root.toList
      = setList ow k v t.root.toList := by
    rw [BTree.set]
    rcases hr : (BNode.set t.maxNodeSize k v ow t.root).right? with _ | rn
    · rw [hr, sideList] at h1
      simpa using h1
    · rw [hr, sideList] at h1
      simpa [BNode.toList, BNode.toListChildren] using h1
  refine ⟨hroot, h2, ?_, ?_, ?_, hM4, hM256⟩
  · exact hroot ▸ sorted_setList ow k v t.root.toList hs
  · rw [BTree.set]
    rcases hr : (BNode.set t.maxNodeSize k v ow t.root).right? with _ | rn
    · exact h3
    · exact GoodShape.internal _ (by simp) (by
        intro c hc
        rcases List.mem_cons.1 hc with hx | hx
        · exact hx ▸ h3
        · have : c = rn := by simpa using hx
          exact this ▸ h4 rn hr)
  · show (t.set k v ow).1.size = _
    have hsize : (t.set k v ow).1.size
        = t.size + (if (BNode.set t.maxNodeSize k v ow t.root).added
            then 1 else 0) := by
      rw [BTree.set]
    rw [hsize, hroot, length_setList ow k v t.root.toList hs, hsz, h2]
    by_cases hc : containsKey k t.root.toList = true
    · simp [BTree.toArray, hc]
    · simp only [Bool.not_eq_true] at hc
      simp [BTree.toArray, hc]

theorem BTree.delete_facade (t : BTree K V) (k : K) (h : Valid t) :
    (t.delete k).1.toArray = eraseKey k t.toArray
    ∧ (t.delete k).2 = containsKey k t.toArray
    ∧ Valid (t.delete k).1 := by
  obtain ⟨hs, hg, hsz, hM4, hM256⟩ := h
  obtain ⟨h1, h2, h3⟩ := BNode.del_spec k t.root hs hg
  have hroot : (t.delete k).1.root.toList = eraseKey k t.root.toList := by
    rw [BTree.delete]
    simpa [toList_collapseRoot] using h1
  refine ⟨hroot, h2, ?_, ?_, ?_, hM4, hM256⟩
  · exact hroot ▸ sorted_eraseKey k t.root.toList hs
  · show GoodShape (collapseRoot (BNode.del k t.root).1)
    rcases hd : (BNode.del k t.root).1 with items | cs
    · exact GoodShape.leaf _
    · rcases h3 with h3 | h3
      · rw [hd] at h3
        simp only [BNode.isEmptyN, List.isEmpty_iff] at h3
        subst h3
        exact GoodShape.leaf _
      · rw [hd] at h3
        rcases h3 with _ | ⟨_, hne, hcs⟩
        cases cs with
        | nil => exact absurd rfl hne
        | cons c cs' =>
          cases cs' with
          | nil =>
            simpa [collapseRoot] using hcs c (by simp)
          | cons c' cs'' =>
            exact GoodShape.internal _ (by simp) hcs
  · show (t.delete k).1.size = _
    have hsize : (t.delete k).1.size
        = t.size - (if (BNode.del k t.root).2 then 1 else 0) := by
      rw [BTree.delete]
    rw [hsize, hroot, length_eraseKey, hsz, h2]
    by_cases hc : containsKey k t.root.toList = true
    · simp [BTree.toArray, hc]
    · simp only [Bool.not_eq_true] at hc
      simp [BTree.toArray, hc]

theorem BTree.mkEmpty_valid (M? : Option Nat) :
    Valid (BTree.mkEmpty M? : BTree K V) := by
  obtain ⟨h4, h256⟩ := clampNodeSize_bounds M?
  exact ⟨by simp [BTree.mkEmpty, BNode.toList, keysOfList],
    GoodShape.leaf _, by simp [BTree.mkEmpty, BNode.toList], h4, h256⟩

theorem BTree.setRange_facade (t : BTree K V) (pairs : List (K × V))
    (h : Valid t) :
    (t.setRange pairs).toArray
        = pairs.foldl (fun l p => insertPair p.1 p.2 l) t.toArray
    ∧ Valid (t.setRange pairs) := by
  induction pairs generalizing t with
  | nil => exact ⟨rfl, h⟩
  | cons p rest ih =>
    obtain ⟨h1, _, h3⟩ := BTree.set_facade t p.1 p.2 true h
    have hstep : (t.set p.1 p.2 true).1.toArray
        = insertPair p.1 p.2 t.toArray := by
      rw [h1, setList]
      simp
    obtain ⟨ih1, ih2⟩ := ih (t.set p.1 p.2 true).1 h3
    have hsr : t.setRange (p :: rest)
        = ((t.set p.1 p.2 true).1).setRange rest := rfl
    constructor
    · rw [hsr, ih1, hstep, List.foldl_cons]
    · rw [hsr]
      exact ih2

theorem BTree.ofEntries_facade (entries : List (K × V)) (M? : Option Nat) :
    (BTree.ofEntries entries M? : BTree K V).toArray
        = entries.foldl (fun l p => insertPair p.1 p.2 l) []
    ∧ Valid (BTree.ofEntries entries M? : BTree K V) := by
  have h := BTree.setRange_facade (BTree.mkEmpty M? : BTree K V) entries
    (BTree.mkEmpty_valid M?)
  rw [BTree.ofEntries]
  have : (BTree.mkEmpty M? : BTree K V).toArray = [] := rfl
  rw [this] at h
  exact h

end FacadeSpec

section RangeSpec

variable {K V : Type} [LinearOrder K] {R : Type}

/-- Modelled from the spec: the callback-sequence semantics of a range scan
(spec section 4.6): the callback is invoked once per listed pair in order,
the counter increasing by one per call, stopping early on a break
directive. -/
def forPairsSpec (f : K → V → Nat → Option R) : Nat → List (K × V) → (R ⊕ Nat)
  | c, [] => .inr c
  | c, (k, v) :: rest =>
    match f k v c with
    | some r => .inl r
    | none => forPairsSpec f (c + 1) rest

/-- Modelled from the spec: a key past the upper end of the scanned range, at
which the scan stops (spec section 4.6). -/
def Beyond (lo hi : K) (inc : Bool) (k : K) : Prop :=
  lo ≤ k ∧ ¬(k < hi ∨ (k = hi ∧ inc = true))

theorem beyond_mono {lo hi : K} {inc : Bool} {k k' : K}
    (h : Beyond lo hi inc k) (hk : k < k') : Beyond lo hi inc k' := by
  obtain ⟨h1, h2⟩ := h
  push_neg at h2
  have hhi : hi ≤ k := h2.1
  refine ⟨h1.trans hk.le, ?_⟩
  push_neg
  exact ⟨hhi.trans hk.le, fun he => absurd (he ▸ hk) (not_lt.2 hhi)⟩

theorem forItems_beyond (lo hi : K) (inc : Bool)
    (f : K → V → Nat → Option R) (c : Nat) (l : List (K × V))
    (h : ∀ p ∈ l, Beyond lo hi inc p.1) :
    forItems lo hi inc f c l = .inr c := by
  cases l with
  | nil => rfl
  | cons p rest =>
    obtain ⟨k, v⟩ := p
    obtain ⟨h1, h2⟩ := h (k, v) (by simp)
    rw [forItems, if_neg (not_lt.2 h1), if_neg (by simpa using h2)]

theorem forItems_append (lo hi : K) (inc : Bool)
    (f : K → V → Nat → Option R) (c : Nat) (A B : List (K × V))
    (hs : List.Sorted (· < ·) (keysOfList (A ++ B))) :
    forItems lo hi inc f c (A ++ B)
      = match forItems lo hi inc f c A with
        | .inl r => .inl r
        | .inr c' => forItems lo hi inc f c' B := by
  induction A generalizing c with
  | nil => simp [forItems]
  | cons p A' ih =>
    obtain ⟨k, v⟩ := p
    obtain ⟨hrest, habove⟩ := sorted_cons_keys (l := A' ++ B) hs
    by_cases hlo : k < lo
    · rw [List.cons_append, forItems, if_pos hlo, forItems, if_pos hlo]
      exact ih c hrest
    · by_cases hin : k < hi ∨ (k = hi ∧ inc = true)
      · rw [List.cons_append, forItems, if_neg hlo, if_pos hin,
          forItems, if_neg hlo, if_pos hin]
        rcases f k v c with _ | r
        · exact ih (c + 1) hrest
        · rfl
      · have hbeyond : Beyond lo hi inc k := ⟨not_lt.1 hlo, hin⟩
        have hstop : forItems lo hi inc f c ((k, v) :: A') = .inr c := by
          rw [forItems, if_neg hlo, if_neg hin]
        rw [List.cons_append, forItems, if_neg hlo, if_neg hin, hstop]
        show Sum.inr c = forItems lo hi inc f c B
        refine (forItems_beyond lo hi inc f c B ?_).symm
        intro q hq
        exact beyond_mono hbeyond (habove q (List.mem_append_right _ hq))

theorem inRangeB_iff (lo hi : K) (inc : Bool) (k : K) :
    inRangeB lo hi inc k = true
      ↔ ¬k < lo ∧ (k < hi ∨ (k = hi ∧ inc = true)) := by
  rw [inRangeB]
  simp only [Bool.and_eq_true, Bool.or_eq_true, decide_eq_true_eq,
    Bool.and_eq_true]
  constructor
  · rintro ⟨h1, h2⟩
    exact ⟨not_lt.2 h1, h2⟩
  · rintro ⟨h1, h2⟩
    exact ⟨not_lt.1 h1, h2⟩

theorem forItems_eq_spec (lo hi : K) (inc : Bool)
    (f : K → V → Nat → Option R) (c : Nat) (l : List (K × V))
    (hs : List.Sorted (· < ·) (keysOfList l)) :
    forItems lo hi inc f c l
      = forPairsSpec f c (l.filter (fun p => inRangeB lo hi inc p.1)) := by
  induction l generalizing c with
  | nil => rfl
  | cons p rest ih =>
    obtain ⟨k, v⟩ := p
    obtain ⟨hrest, habove⟩ := sorted_cons_keys hs
    by_cases hlo : k < lo
    · have hf : inRangeB lo hi inc k = false := by
        rw [inRangeB]
        simp [not_le.2 hlo]
      have hfilter : ((k, v) :: rest).filter
            (fun p => inRangeB lo hi inc p.1)
          = rest.filter (fun p => inRangeB lo hi inc p.1) := by
        simp [List.filter_cons, hf]
      rw [forItems, if_pos hlo, hfilter]
      exact ih c hrest
    · by_cases hin : k < hi ∨ (k = hi ∧ inc = true)
      · have hf : inRangeB lo hi inc k = true :=
          (inRangeB_iff lo hi inc k).2 ⟨hlo, hin⟩
        have hfilter : ((k, v) :: rest).filter
              (fun p => inRangeB lo hi inc p.1)
            = (k, v) :: rest.filter (fun p => inRangeB lo hi inc p.1) := by
          simp [List.filter_cons, hf]
        rw [forItems, if_neg hlo, if_pos hin, hfilter, forPairsSpec]
        rcases f k v c with _ | r
        · exact ih (c + 1) hrest
        · rfl
      · have hf : inRangeB lo hi inc k = false := by
          have hne : ¬inRangeB lo hi inc k = true :=
            fun hc => hin ((inRangeB_iff lo hi inc k).1 hc).2
          simpa using hne
        have hnil : ((k, v) :: rest).filter
            (fun p => inRangeB lo hi inc p.1) = [] := by
          rw [List.filter_eq_nil_iff]
          intro q hq
          rcases List.mem_cons.1 hq with h | h
          · intro hc
            rw [h] at hc
            exact hin ((inRangeB_iff lo hi inc k).1 hc).2
          · have hb : Beyond lo hi inc q.1 :=
              beyond_mono ⟨not_lt.1 hlo, hin⟩ (habove q h)
            intro hc
            exact hb.2 ((inRangeB_iff lo hi inc q.1).1 hc).2
        rw [forItems, if_neg hlo, if_neg hin, hnil]
        rfl

theorem forPairsSpec_no_break (f : K → V → Nat → Option R) (c : Nat)
    (l : List (K × V)) (h : ∀ k v c', f k v c' = none) :
    forPairsSpec f c l = .inr (c + l.length) := by
  induction l generalizing c with
  | nil => rfl
  | cons p rest ih =>
    obtain ⟨k, v⟩ := p
    rw [forPairsSpec, h k v c]
    rw [ih (c + 1)]
    simp only [List.length_cons]
    congr 1
    omega

mutual

theorem BNode.forR_spec (lo hi : K) (inc : Bool)
    (f : K → V → Nat → Option R) (c : Nat) (n : BNode K V)
    (hs : List.Sorted (· < ·) (keysOfList n.toList)) :
    n.forR lo hi inc f c = forItems lo hi inc f c n.toList := by
  cases n with
  | leaf items => rfl
  | internal cs =>
    rw [BNode.forR, BNode.toList]
    exact BNode.forRChildren_spec lo hi inc f c cs
      (by rwa [BNode.toList] at hs)

theorem BNode.forRChildren_spec (lo hi : K) (inc : Bool)
    (f : K → V → Nat → Option R) (c : Nat) (cs : List (BNode K V))
    (hs : List.Sorted (· < ·) (keysOfList (BNode.toListChildren cs))) :
    BNode.forRChildren lo hi inc f c cs
      = forItems lo hi inc f c (BNode.toListChildren cs) := by
  cases cs with
  | nil => rfl
  | cons n ns =>
    rw [BNode.forRChildren, BNode.toListChildren]
    rw [BNode.toListChildren, keysOfList_append] at hs
    have hsn : List.Sorted (· < ·) (keysOfList n.toList) :=
      (List.pairwise_append.1 hs).1
    have hsns : List.Sorted (· < ·)
        (keysOfList (BNode.toListChildren ns)) :=
      (List.pairwise_append.1 hs).2.1
    rw [forItems_append lo hi inc f c _ _ (by rwa [keysOfList_append]),
      ← BNode.forR_spec lo hi inc f c n hsn]
    rcases n.forR lo hi inc f c with r | c'
    · rfl
    · exact BNode.forRChildren_spec lo hi inc f c' ns hsns

end

theorem BTree.forRange_spec (t : BTree K V) (lo hi : K) (inc : Bool)
    (f : K → V → Nat → Option R) (c0 : Nat) (h : Valid t) :
    t.forRange lo hi inc f c0
      = forPairsSpec f c0
          (t.toArray.filter (fun p => inRangeB lo hi inc p.1)) := by
  rw [BTree.forRange, BNode.forR_spec lo hi inc f c0 t.root h.1,
    forItems_eq_spec lo hi inc f c0 t.root.toList h.1]
  rfl

end RangeSpec

section EditSpec

variable {K V : Type} [LinearOrder K] {R : Type}

theorem editItems_cons_lt {lo hi : K} {inc : Bool}
    {f : K → V → Nat → EditDirective V R} {c : Nat} {k : K} {v : V}
    {l : List (K × V)} (h : k < lo) :
    editItems lo hi inc f c ((k, v) :: l)
      = ((k, v) :: (editItems lo hi inc f c l).1,
          (editItems lo hi inc f c l).2) := by
  simp only [editItems, if_pos h]

theorem editItems_cons_beyond {lo hi : K} {inc : Bool}
    {f : K → V → Nat → EditDirective V R} {c : Nat} {k : K} {v : V}
    {l : List (K × V)} (hlo : ¬k < lo)
    (hin : ¬(k < hi ∨ (k = hi ∧ inc = true))) :
    editItems lo hi inc f c ((k, v) :: l) = ((k, v) :: l, .inr c, 0) := by
  simp only [editItems, if_neg hlo, if_neg hin]

theorem editItems_cons_brk {lo hi : K} {inc : Bool}
    {f : K → V → Nat → EditDirective V R} {c : Nat} {k : K} {v : V}
    {l : List (K × V)} {r : R} (hlo : ¬k < lo)
    (hin : k < hi ∨ (k = hi ∧ inc = true)) (hb : (f k v c).brk? = some r) :
    editItems lo hi inc f c ((k, v) :: l)
      = ((if (f k v c).del then [] else [(k, ((f k v c).value?).getD v)])
            ++ l,
          .inl r, if (f k v c).del then 1 else 0) := by
  simp only [editItems, if_neg hlo, if_pos hin, hb]

theorem editItems_cons_cont {lo hi : K} {inc : Bool}
    {f : K → V → Nat → EditDirective V R} {c : Nat} {k : K} {v : V}
    {l : List (K × V)} (hlo : ¬k < lo)
    (hin : k < hi ∨ (k = hi ∧ inc = true)) (hb : (f k v c).brk? = none) :
    editItems lo hi inc f c ((k, v) :: l)
      = ((if (f k v c).del then [] else [(k, ((f k v c).value?).getD v)])
            ++ (editItems lo hi inc f (c + 1) l).1,
          (editItems lo hi inc f (c + 1) l).2.1,
          (if (f k v c).del then 1 else 0)
            + (editItems lo hi inc f (c + 1) l).2.2) := by
  simp only [editItems, if_neg hlo, if_pos hin, hb]

theorem editItems_beyond {lo hi : K} {inc : Bool}
    {f : K → V → Nat → EditDirective V R} {c : Nat} {l : List (K × V)}
    (h : ∀ p ∈ l, Beyond lo hi inc p.1) :
    editItems lo hi inc f c l = (l, .inr c, 0) := by
  cases l with
  | nil => rfl
  | cons p rest =>
    obtain ⟨k, v⟩ := p
    obtain ⟨h1, h2⟩ := h (k, v) (by simp)
    exact editItems_cons_beyond (not_lt.2 h1) (by simpa using h2)

theorem editItems_append (lo hi : K) (inc : Bool)
    (f : K → V → Nat → EditDirective V R) (c : Nat) (A B : List (K × V))
    (hs : List.Sorted (· < ·) (keysOfList (A ++ B))) :
    editItems lo hi inc f c (A ++ B)
      = match (editItems lo hi inc f c A).2.1 with
        | .inl r => ((editItems lo hi inc f c A).1 ++ B, .inl r,
            (editItems lo hi inc f c A).2.2)
        | .inr c' => ((editItems lo hi inc f c A).1
              ++ (editItems lo hi inc f c' B).1,
            (editItems lo hi inc f c' B).2.1,
            (editItems lo hi inc f c A).2.2
              + (editItems lo hi inc f c' B).2.2) := by
  induction A generalizing c with
  | nil =>
    simp only [List.nil_append, editItems]
    cases hE : editItems lo hi inc f c B with
    | mk l1 l2 => simp
  | cons p A' ih =>
    obtain ⟨k, v⟩ := p
    obtain ⟨hrest, habove⟩ := sorted_cons_keys (l := A' ++ B) hs
    by_cases hlo : k < lo
    · rw [List.cons_append, editItems_cons_lt hlo, editItems_cons_lt hlo,
        ih c hrest]
      rcases (editItems lo hi inc f c A').2.1 with r | c'
      · rfl
      · rfl
    · by_cases hin : k < hi ∨ (k = hi ∧ inc = true)
      · rcases hb : (f k v c).brk? with _ | r
        · rw [List.cons_append, editItems_cons_cont hlo hin hb,
            editItems_cons_cont hlo hin hb, ih (c + 1) hrest]
          rcases (editItems lo hi inc f (c + 1) A').2.1 with r | c'
          · simp
          · simp [List.append_assoc]
            omega
        · rw [List.cons_append, editItems_cons_brk hlo hin hb,
            editItems_cons_brk hlo hin hb]
          simp [List.append_assoc]
      · have hbeyond : Beyond lo hi inc k := ⟨not_lt.1 hlo, hin⟩
        rw [List.cons_append, editItems_cons_beyond hlo hin,
          editItems_cons_beyond hlo hin]
        have hB : editItems lo hi inc f c B = (B, .inr c, 0) :=
          editItems_beyond fun q hq =>
            beyond_mono hbeyond (habove q (List.mem_append_right _ hq))
        show ((k, v) :: (A' ++ B), (Sum.inr c : R ⊕ Nat), (0 : Nat))
            = (((k, v) :: A') ++ (editItems lo hi inc f c B).1,
                (editItems lo hi inc f c B).2.1,
                0 + (editItems lo hi inc f c B).2.2)
        rw [hB]
        simp

theorem editItems_append_inl (lo hi : K) (inc : Bool)
    (f : K → V → Nat → EditDirective V R) (c : Nat) (A B : List (K × V))
    {r : R} (hs : List.Sorted (· < ·) (keysOfList (A ++ B)))
    (h : (editItems lo hi inc f c A).2.1 = .inl r) :
    editItems lo hi inc f c (A ++ B)
      = ((editItems lo hi inc f c A).1 ++ B, .inl r,
          (editItems lo hi inc f c A).2.2) := by
  rw [editItems_append lo hi inc f c A B hs, h]

theorem editItems_append_inr (lo hi : K) (inc : Bool)
    (f : K → V → Nat → EditDirective V R) (c : Nat) (A B : List (K × V))
    {c' : Nat} (hs : List.Sorted (· < ·) (keysOfList (A ++ B)))
    (h : (editItems lo hi inc f c A).2.1 = .inr c') :
    editItems lo hi inc f c (A ++ B)
      = ((editItems lo hi inc f c A).1 ++ (editItems lo hi inc f c' B).1,
          (editItems lo hi inc f c' B).2.1,
          (editItems lo hi inc f c A).2.2
            + (editItems lo hi inc f c' B).2.2) := by
  rw [editItems_append lo hi inc f c A B hs, h]

mutual

theorem BNode.editR_spec (lo hi : K) (inc : Bool)
    (f : K → V → Nat → EditDirective V R) (c : Nat) (n : BNode K V)
    (hs : List.Sorted (· < ·) (keysOfList n.toList)) :
    (n.editR lo hi inc f c).1.toList
        = (editItems lo hi inc f c n.toList).1
    ∧ (n.editR lo hi inc f c).2
        = (editItems lo hi inc f c n.toList).2 := by
  cases n with
  | leaf items =>
    rw [BNode.editR]
    exact ⟨rfl, rfl⟩
  | internal cs =>
    rw [BNode.toList] at hs ⊢
    obtain ⟨h1, h2⟩ := BNode.editRChildren_spec lo hi inc f c cs hs
    rw [BNode.editR]
    exact ⟨by simpa [BNode.toList] using h1, h2⟩

theorem BNode.editRChildren_spec (lo hi : K) (inc : Bool)
    (f : K → V → Nat → EditDirective V R) (c : Nat) (cs : List (BNode K V))
    (hs : List.Sorted (· < ·) (keysOfList (BNode.toListChildren cs))) :
    BNode.toListChildren (BNode.editRChildren lo hi inc f c cs).1
        = (editItems lo hi inc f c (BNode.toListChildren cs)).1
    ∧ (BNode.editRChildren lo hi inc f c cs).2
        = (editItems lo hi inc f c (BNode.toListChildren cs)).2 := by
  cases cs with
  | nil => exact ⟨rfl, rfl⟩
  | cons n ns =>
    rw [BNode.toListChildren, keysOfList_append] at hs
    have hsn : List.Sorted (· < ·) (keysOfList n.toList) :=
      (List.pairwise_append.1 hs).1
    have hsns : List.Sorted (· < ·)
        (keysOfList (BNode.toListChildren ns)) :=
      (List.pairwise_append.1 hs).2.1
    obtain ⟨hn1, hn2⟩ := BNode.editR_spec lo hi inc f c n hsn
    have hsapp : List.Sorted (· < ·)
        (keysOfList (n.toList ++ BNode.toListChildren ns)) := by
      rwa [keysOfList_append]
    have hkeep : ∀ tail : List (BNode K V), BNode.toListChildren
          ((if (n.editR lo hi inc f c).1.isEmptyN then []
            else [(n.editR lo hi inc f c).1]) ++ tail)
        = (n.editR lo hi inc f c).1.toList
            ++ BNode.toListChildren tail := by
      intro tail
      by_cases he : (n.editR lo hi inc f c).1.isEmptyN
      · rw [if_pos he, toList_eq_nil_of_isEmptyN he]
        rfl
      · rw [if_neg he]
        rfl
    rcases hout : (n.editR lo hi inc f c).2.1 with rr | c'
    · have hout2 : (editItems lo hi inc f c n.toList).2.1 = .inl rr := by
        rw [← hn2]
        exact hout
      have hunfold : BNode.editRChildren lo hi inc f c (n :: ns)
          = ((if (n.editR lo hi inc f c).1.isEmptyN then []
              else [(n.editR lo hi inc f c).1]) ++ ns, .inl rr,
              (n.editR lo hi inc f c).2.2) := by
        simp only [BNode.editRChildren, hout]
      rw [BNode.toListChildren, hunfold,
        editItems_append_inl lo hi inc f c _ _ hsapp hout2, hkeep, hn1]
      refine ⟨rfl, ?_⟩
      show ((Sum.inl rr : R ⊕ Nat), (n.editR lo hi inc f c).2.2)
          = (Sum.inl rr, (editItems lo hi inc f c n.toList).2.2)
      rw [hn2]
    · have hout2 : (editItems lo hi inc f c n.toList).2.1 = .inr c' := by
        rw [← hn2]
        exact hout
      obtain ⟨ih1, ih2⟩ := BNode.editRChildren_spec lo hi inc f c' ns hsns
      have hunfold : BNode.editRChildren lo hi inc f c (n :: ns)
          = ((if (n.editR lo hi inc f c).1.isEmptyN then []
              else [(n.editR lo hi inc f c).1])
                ++ (BNode.editRChildren lo hi inc f c' ns).1,
              (BNode.editRChildren lo hi inc f c' ns).2.1,
              (n.editR lo hi inc f c).2.2
                + (BNode.editRChildren lo hi inc f c' ns).2.2) := by
        simp only [BNode.editRChildren, hout]
      rw [BNode.toListChildren, hunfold,
        editItems_append_inr lo hi inc f c _ _ hsapp hout2, hkeep, hn1, ih1]
      refine ⟨rfl, ?_⟩
      show ((BNode.editRChildren lo hi inc f c' ns).2.1,
            (n.editR lo hi inc f c).2.2
              + (BNode.editRChildren lo hi inc f c' ns).2.2)
          = ((editItems lo hi inc f c'
                (BNode.toListChildren ns)).2.1,
              (editItems lo hi inc f c n.toList).2.2
                + (editItems lo hi inc f c'
                    (BNode.toListChildren ns)).2.2)
      rw [hn2, ih2]

end

end EditSpec

section FacadeSpecB

variable {K V : Type} [LinearOrder K] {R : Type}

theorem BTree.editRange_facade (t : BTree K V) (lo hi : K) (inc : Bool)
    (f : K → V → Nat → EditDirective V R) (c0 : Nat) (h : Valid t) :
    (t.editRange lo hi inc f c0).1.toArray
        = (editItems lo hi inc f c0 t.toArray).1
    ∧ (t.editRange lo hi inc f c0).2
        = (editItems lo hi inc f c0 t.toArray).2.1
    ∧ (t.editRange lo hi inc f c0).1.size
        = t.size - (editItems lo hi inc f c0 t.toArray).2.2 := by
  obtain ⟨h1, h2⟩ := BNode.editR_spec lo hi inc f c0 t.root h.1
  refine ⟨?_, ?_, ?_⟩
  · show (collapseRoot (t.root.editR lo hi inc f c0).1).toList = _
    rw [toList_collapseRoot]
    exact h1
  · show (t.root.editR lo hi inc f c0).2.1 = _
    rw [h2]
    rfl
  · show t.size - (t.root.editR lo hi inc f c0).2.2 = _
    rw [h2]
    rfl

/-- Modelled from the spec: the trees reachable from a freshly constructed
tree by any sequence of `set` and `delete` operations (spec section 8,
quantified invariants). -/
inductive Reachable : BTree K V → Prop where
  | base (entries : List (K × V)) (M? : Option Nat) :
      Reachable (BTree.ofEntries entries M?)
  | setStep (t : BTree K V) (k : K) (v : V) (ow : Bool) :
      Reachable t → Reachable (t.set k v ow).1
  | delStep (t : BTree K V) (k : K) :
      Reachable t → Reachable (t.delete k).1

theorem Reachable.valid {t : BTree K V} (h : Reachable t) : Valid t := by
  induction h with
  | base entries M? => exact (BTree.ofEntries_facade entries M?).2
  | setStep t k v ow _ ih => exact (BTree.set_facade t k v ow ih).2.2
  | delStep t k _ ih => exact (BTree.delete_facade t k ih).2.2

end FacadeSpecB

section SortUnique

variable {K V : Type} [LinearOrder K]

/-- Stated from the spec's words for the round-trip property (spec section 8,
property 5, "sort-unique(A) with later duplicates winning"): keep, for each
key, only the last pair of the input carrying it. -/
def dedupLast : List (K × V) → List (K × V)
  | [] => []
  | p :: rest =>
    if rest.any (fun q => decide (q.1 = p.1)) then dedupLast rest
    else p :: dedupLast rest

/-- Stated from the spec's words for the round-trip property: the input with
later duplicates winning, sorted by key. -/
def sortUniqueLastWins (A : List (K × V)) : List (K × V) :=
  (dedupLast A).insertionSort (fun p q => p.1 ≤ q.1)

theorem dedupLast_subset {A : List (K × V)} {q : K × V}
    (h : q ∈ dedupLast A) : q ∈ A := by
  induction A with
  | nil => simpa [dedupLast] using h
  | cons p rest ih =>
    rw [dedupLast] at h
    split at h
    · exact List.mem_cons_of_mem _ (ih h)
    · rcases List.mem_cons.1 h with h' | h'
      · exact h' ▸ List.mem_cons_self _ _
      · exact List.mem_cons_of_mem _ (ih h')

theorem keys_dedupLast_nodup (A : List (K × V)) :
    (keysOfList (dedupLast A)).Nodup := by
  induction A with
  | nil => simp [dedupLast, keysOfList]
  | cons p rest ih =>
    rw [dedupLast]
    split
    · exact ih
    · rename_i hany
      simp only [keysOfList, List.map_cons, List.nodup_cons]
      refine ⟨?_, ih⟩
      intro hmem
      obtain ⟨q, hq, hq1⟩ := List.mem_map.1 hmem
      refine hany ?_
      rw [List.any_eq_true]
      exact ⟨q, dedupLast_subset hq, by simp [hq1]⟩

theorem lookupKey_cons_self (p : K × V) (l : List (K × V)) :
    lookupKey p.1 (p :: l) = some p.2 := by
  obtain ⟨k, v⟩ := p
  simp [lookupKey]

theorem mem_of_lookupKey_eq_some {k : K} {v : V} {l : List (K × V)}
    (h : lookupKey k l = some v) : (k, v) ∈ l := by
  induction l with
  | nil => simp [lookupKey] at h
  | cons p rest ih =>
    obtain ⟨k', v'⟩ := p
    rw [lookupKey] at h
    split at h
    · rename_i hk
      simp only [Option.some.injEq] at h
      simp [← hk, ← h]
    · exact List.mem_cons_of_mem _ (ih h)

theorem lookupKey_eq_some_of_mem_nodup {k : K} {v : V} {l : List (K × V)}
    (hnd : (keysOfList l).Nodup) (h : (k, v) ∈ l) :
    lookupKey k l = some v := by
  induction l with
  | nil => simp at h
  | cons p rest ih =>
    obtain ⟨k', v'⟩ := p
    simp only [keysOfList, List.map_cons, List.nodup_cons] at hnd
    rcases List.mem_cons.1 h with h' | h'
    · obtain ⟨h1, h2⟩ := Prod.mk.injEq .. ▸ h'
      rw [lookupKey, if_pos h1.symm, h2]
    · rw [lookupKey]
      split
      · rename_i hk
        exfalso
        refine hnd.1 ?_
        rw [hk]
        exact List.mem_map_of_mem Prod.fst h'
      · exact ih hnd.2 h'

theorem mem_dedupLast_iff {k : K} {v : V} (A : List (K × V)) :
    (k, v) ∈ dedupLast A ↔ lookupKey k A.reverse = some v := by
  induction A with
  | nil => simp [dedupLast, lookupKey]
  | cons p rest ih =>
    obtain ⟨k', v'⟩ := p
    rw [List.reverse_cons, lookupKey_append, dedupLast]
    by_cases hany : rest.any (fun q => decide (q.1 = (k', v').1)) = true
    · rw [if_pos hany]
      by_cases hk : k' = k
      · subst hk
        have hme : k' ∈ keysOfList rest.reverse := by
          rw [List.any_eq_true] at hany
          obtain ⟨q, hq, hq1⟩ := hany
          simp only [decide_eq_true_eq] at hq1
          rw [keysOfList, List.map_reverse, List.mem_reverse]
          exact hq1 ▸ List.mem_map_of_mem Prod.fst hq
        have : containsKey k' rest.reverse = true :=
          (containsKey_iff_mem k' rest.reverse).2 hme
        rw [containsKey] at this
        rcases hlk : lookupKey k' rest.reverse with _ | w
        · rw [hlk] at this
          simp at this
        · rw [ih, hlk]
          simp [Option.or]
      · have : lookupKey k [(k', v')] = none := by
          simp [lookupKey, hk]
        rw [this, ih]
        rcases lookupKey k rest.reverse with _ | w <;> simp [Option.or]
    · rw [if_neg hany]
      have hnk : k' ∉ keysOfList rest := by
        intro hmem
        obtain ⟨q, hq, hq1⟩ := List.mem_map.1 hmem
        refine hany ?_
        rw [List.any_eq_true]
        exact ⟨q, hq, by simp [hq1]⟩
      by_cases hk : k' = k
      · subst hk
        have hnone : lookupKey k' rest.reverse = none := by
          rw [lookupKey_eq_none_iff, keysOfList, List.map_reverse,
            List.mem_reverse]
          exact hnk
        have hnd : (k', v) ∉ dedupLast rest := by
          intro hmem
          have hcontra := (ih).1 hmem
          rw [hnone] at hcontra
          cases hcontra
        rw [hnone]
        simp only [List.mem_cons, Option.or]
        constructor
        · rintro (h' | h')
          · obtain ⟨-, h2⟩ := Prod.mk.injEq .. ▸ h'
            simp [lookupKey, h2]
          · exact absurd h' hnd
        · intro h'
          have : v' = v := by simpa [lookupKey] using h'
          exact Or.inl (by rw [this])
      · have : lookupKey k [(k', v')] = none := by
          simp [lookupKey, hk]
        rw [this]
        simp only [List.mem_cons, ih]
        constructor
        · rintro (h' | h')
          · exact absurd (Prod.mk.injEq .. ▸ h').1 (fun hh => hk hh.symm)
          · rcases hlk : lookupKey k rest.reverse with _ | w
            · rw [hlk] at h'
              cases h'
            · rw [hlk] at h'
              simpa [Option.or] using h'
        · intro h'
          refine Or.inr ?_
          rcases hlk : lookupKey k rest.reverse with _ | w
          · rw [hlk] at h'
            simp [Option.or] at h'
          · rw [hlk] at h'
            simpa [Option.or] using h'

end SortUnique

section SortUniqueB

variable {K V : Type} [LinearOrder K]

theorem lookupKey_foldl_insert (A : List (K × V)) (init : List (K × V))
    (k : K) :
    lookupKey k (A.foldl (fun l p => insertPair p.1 p.2 l) init)
      = (lookupKey k A.reverse).or (lookupKey k init) := by
  induction A generalizing init with
  | nil => simp [lookupKey]
  | cons p rest ih =>
    rw [List.foldl_cons, ih, List.reverse_cons, lookupKey_append]
    by_cases hk : p.1 = k
    · subst hk
      have h1 : lookupKey p.1 (insertPair p.1 p.2 init) = some p.2 :=
        lookupKey_insertPair_self p.1 p.2 init
      have h2 : lookupKey p.1 [p] = some p.2 := lookupKey_cons_self p []
      rw [h1, h2]
      rcases lookupKey p.1 rest.reverse with _ | w <;> simp [Option.or]
    · have h1 : lookupKey k (insertPair p.1 p.2 init) = lookupKey k init :=
        lookupKey_insertPair_ne k p.1 p.2 init (fun hh => hk hh.symm)
      have h2 : lookupKey k [p] = none := by
        obtain ⟨k', v'⟩ := p
        simp only at hk
        simp [lookupKey, hk]
      rw [h1, h2]
      rcases lookupKey k rest.reverse with _ | w <;> simp [Option.or]

theorem sorted_foldl_insert (A : List (K × V)) (init : List (K × V))
    (hs : List.Sorted (· < ·) (keysOfList init)) :
    List.Sorted (· < ·)
      (keysOfList (A.foldl (fun l p => insertPair p.1 p.2 l) init)) := by
  induction A generalizing init with
  | nil => exact hs
  | cons p rest ih =>
    rw [List.foldl_cons]
    exact ih _ (sorted_insertPair p.1 p.2 init hs)

instance instIsTotalPairKeyLe : IsTotal (K × V) (fun p q => p.1 ≤ q.1) :=
  ⟨fun a b => le_total a.1 b.1⟩

instance instIsTransPairKeyLe : IsTrans (K × V) (fun p q => p.1 ≤ q.1) :=
  ⟨fun _ _ _ h1 h2 => le_trans h1 h2⟩

theorem sorted_sortUniqueLastWins (A : List (K × V)) :
    List.Sorted (· < ·) (keysOfList (sortUniqueLastWins A)) := by
  have hperm : (sortUniqueLastWins A).Perm (dedupLast A) :=
    List.perm_insertionSort _ _
  have hnd : (keysOfList (sortUniqueLastWins A)).Nodup := by
    have := keys_dedupLast_nodup A
    exact (hperm.map Prod.fst).nodup_iff.2 this
  have hsorted : List.Sorted (fun p q : K × V => p.1 ≤ q.1)
      (sortUniqueLastWins A) := by
    apply List.sorted_insertionSort
  have hpnd : List.Pairwise (fun p q : K × V => p.1 ≠ q.1)
      (sortUniqueLastWins A) := List.pairwise_map.1 hnd
  have hplt : List.Pairwise (fun p q : K × V => p.1 < q.1)
      (sortUniqueLastWins A) :=
    (hsorted.and hpnd).imp fun h => lt_of_le_of_ne h.1 h.2
  exact List.pairwise_map.2 hplt

theorem sorted_lookup_ext (l₁ l₂ : List (K × V))
    (h₁ : List.Sorted (· < ·) (keysOfList l₁))
    (h₂ : List.Sorted (· < ·) (keysOfList l₂))
    (h : ∀ k, lookupKey k l₁ = lookupKey k l₂) : l₁ = l₂ := by
  induction l₁ generalizing l₂ with
  | nil =>
    cases l₂ with
    | nil => rfl
    | cons q r₂ =>
      have := h q.1
      rw [lookupKey_cons_self] at this
      simp [lookupKey] at this
  | cons p r₁ ih =>
    cases l₂ with
    | nil =>
      have := h p.1
      rw [lookupKey_cons_self] at this
      simp [lookupKey] at this
    | cons q r₂ =>
      obtain ⟨hr₁, habove₁⟩ := sorted_cons_keys h₁
      obtain ⟨hr₂, habove₂⟩ := sorted_cons_keys h₂
      have hpq : p = q := by
        have hp2 : lookupKey p.1 (q :: r₂) = some p.2 := by
          rw [← h p.1, lookupKey_cons_self]
        have hq2 : lookupKey q.1 (p :: r₁) = some q.2 := by
          rw [h q.1, lookupKey_cons_self]
        have hpmem : (p.1, p.2) ∈ q :: r₂ := mem_of_lookupKey_eq_some hp2
        have hqmem : (q.1, q.2) ∈ p :: r₁ := mem_of_lookupKey_eq_some hq2
        by_cases hk : p.1 = q.1
        · have heq : lookupKey p.1 (q :: r₂) = some q.2 := by
            rw [show p.1 = q.1 from hk]
            exact lookupKey_cons_self q r₂
          rw [hp2] at heq
          exact Prod.ext hk (Option.some_inj.1 heq)
        · exfalso
          rcases List.mem_cons.1 hpmem with h' | h'
          · exact hk (congrArg Prod.fst h')
          · have h1 : q.1 < p.1 := habove₂ (p.1, p.2) h'
            rcases List.mem_cons.1 hqmem with h'' | h''
            · exact hk (congrArg Prod.fst h'').symm
            · exact absurd (habove₁ (q.1, q.2) h'') (not_lt.2 h1.le)
      subst hpq
      have htails : ∀ k, lookupKey k r₁ = lookupKey k r₂ := by
        intro k
        by_cases hk : p.1 = k
        · subst hk
          have hn₁ : lookupKey p.1 r₁ = none := by
            rw [lookupKey_eq_none_iff]
            intro hmem
            obtain ⟨x, hx, hx1⟩ := List.mem_map.1 hmem
            exact absurd (hx1 ▸ habove₁ x hx) (lt_irrefl _)
          have hn₂ : lookupKey p.1 r₂ = none := by
            rw [lookupKey_eq_none_iff]
            intro hmem
            obtain ⟨x, hx, hx1⟩ := List.mem_map.1 hmem
            exact absurd (hx1 ▸ habove₂ x hx) (lt_irrefl _)
          rw [hn₁, hn₂]
        · have := h k
          obtain ⟨k', v'⟩ := p
          simp only at hk
          rwa [lookupKey, lookupKey, if_neg hk, if_neg hk] at this
      rw [ih r₂ hr₁ hr₂ htails]

theorem lookupKey_sortUniqueLastWins (A : List (K × V)) (k : K) :
    lookupKey k (sortUniqueLastWins A) = lookupKey k A.reverse := by
  have hperm : (sortUniqueLastWins A).Perm (dedupLast A) :=
    List.perm_insertionSort _ _
  have hnd : (keysOfList (sortUniqueLastWins A)).Nodup := by
    have := keys_dedupLast_nodup A
    exact (hperm.map Prod.fst).nodup_iff.2 this
  rcases hl : lookupKey k A.reverse with _ | v
  · rw [lookupKey_eq_none_iff] at hl ⊢
    intro hmem
    obtain ⟨x, hx, hx1⟩ := List.mem_map.1 hmem
    have hxd : x ∈ dedupLast A := hperm.subset hx
    have hmm : lookupKey x.1 A.reverse = some x.2 :=
      (mem_dedupLast_iff A).1 (by simpa using hxd)
    refine hl ?_
    rw [← hx1]
    exact List.mem_map_of_mem Prod.fst (mem_of_lookupKey_eq_some hmm)
  · have hmem : (k, v) ∈ dedupLast A := (mem_dedupLast_iff A).2 hl
    exact lookupKey_eq_some_of_mem_nodup hnd (hperm.mem_iff.2 hmem)

theorem foldl_insert_eq_sortUnique (A : List (K × V)) :
    A.foldl (fun l p => insertPair p.1 p.2 l) []
      = sortUniqueLastWins A := by
  refine sorted_lookup_ext _ _
    (sorted_foldl_insert A [] (by simp [keysOfList]))
    (sorted_sortUniqueLastWins A) ?_
  intro k
  rw [lookupKey_foldl_insert, lookupKey_sortUniqueLastWins]
  rcases lookupKey k A.reverse with _ | v <;> simp [Option.or, lookupKey]

end SortUniqueB

section CloneLemmas

variable {K V : Type} [LinearOrder K]

theorem foldl_applySide_fst (ops : List (Bool × TreeOp K V))
    (t₁ t₂ : BTree K V) (h : ∀ o ∈ ops, o.1 = true) :
    (ops.foldl applySide (t₁, t₂)).1 = t₁ := by
  induction ops generalizing t₂ with
  | nil => rfl
  | cons o os ih =>
    rw [List.foldl_cons, applySide, if_pos (h o (by simp))]
    exact ih _ fun o' ho' => h o' (List.mem_cons_of_mem _ ho')

theorem foldl_applySide_snd (ops : List (Bool × TreeOp K V))
    (t₁ t₂ : BTree K V) (h : ∀ o ∈ ops, o.1 = false) :
    (ops.foldl applySide (t₁, t₂)).2 = t₂ := by
  induction ops generalizing t₁ with
  | nil => rfl
  | cons o os ih =>
    rw [List.foldl_cons, applySide, if_neg (by simp [h o (by simp)])]
    exact ih _ fun o' ho' => h o' (List.mem_cons_of_mem _ ho')

theorem BTree.maxNodeSize_set (t : BTree K V) (k : K) (v : V) (ow : Bool) :
    (t.set k v ow).1.maxNodeSize = t.maxNodeSize := rfl

theorem BTree.maxNodeSize_setRange (t : BTree K V) (pairs : List (K × V)) :
    (t.setRange pairs).maxNodeSize = t.maxNodeSize := by
  induction pairs generalizing t with
  | nil => rfl
  | cons p rest ih =>
    have hsr : t.setRange (p :: rest)
        = ((t.set p.1 p.2 true).1).setRange rest := rfl
    rw [hsr, ih, BTree.maxNodeSize_set]

theorem BTree.maxNodeSize_ofEntries (entries : List (K × V))
    (M? : Option Nat) :
    (BTree.ofEntries entries M? : BTree K V).maxNodeSize
      = clampNodeSize M? := by
  rw [BTree.ofEntries, BTree.maxNodeSize_setRange]
  rfl

end CloneLemmas

set_option maxRecDepth 100000

section Claims

/-- Claim C1: for every valid tree, key `k` and value `v`, after
`set(k, v)` with the default overwrite behaviour `get(k)` returns `v`; after
`delete(k)`, `has(k)` is false; `set` returns true exactly when no entry with
a key comparing equal to `k` existed before the call (a mere overwrite
returns false); and `delete` returns true exactly when such an entry existed
and was removed. -/
theorem claim_C1 {K V : Type} [LinearOrder K] (t : BTree K V) (k : K) (v : V)
    (hv : Valid t) :
    (t.set k v true).1.get k = some v
    ∧ (t.delete k).1.has k = false
    ∧ ((t.set k v true).2 = true ↔ t.has k = false)
    ∧ ((t.delete k).2 = true ↔ t.has k = true) := by
  obtain ⟨hset1, hset2, hsetv⟩ := BTree.set_facade t k v true hv
  obtain ⟨hdel1, hdel2, hdelv⟩ := BTree.delete_facade t k hv
  refine ⟨?_, ?_, ?_, ?_⟩
  · rw [BTree.get_lookup _ _ hsetv, hset1, lookupKey_setList_self]
  · rw [BTree.has_contains _ _ hdelv, hdel1, containsKey,
      lookupKey_eraseKey_self k t.toArray hv.1]
    rfl
  · rw [hset2, BTree.has_contains _ _ hv]
    cases containsKey k t.toArray <;> simp
  · rw [hdel2, BTree.has_contains _ _ hv]

theorem claim_C1_witness :
    ((BTree.ofEntries [(1, 10), (2, 20)] none : BTree Nat Nat).set 5 7
        true).1.get 5 = some 7
    ∧ ((BTree.ofEntries [(1, 10), (2, 20)] none
        : BTree Nat Nat).delete 5).1.has 5 = false
    ∧ (((BTree.ofEntries [(1, 10), (2, 20)] none
          : BTree Nat Nat).set 5 7 true).2 = true
        ↔ (BTree.ofEntries [(1, 10), (2, 20)] none
            : BTree Nat Nat).has 5 = false)
    ∧ (((BTree.ofEntries [(1, 10), (2, 20)] none
          : BTree Nat Nat).delete 5).2 = true
        ↔ (BTree.ofEntries [(1, 10), (2, 20)] none
            : BTree Nat Nat).has 5 = true) :=
  claim_C1 (BTree.ofEntries [(1, 10), (2, 20)] none) 5 7
    (BTree.ofEntries_facade [(1, 10), (2, 20)] none).2

/-- Claim C2: cloning yields a tree with the same contents, and both copies
stay independently mutable: any sequence of mutating operations addressed at
the clone leaves the original unchanged, and any sequence addressed at the
original leaves the clone unchanged. In this pure embedding the shared-bit
copy-on-write protocol of the source is realised by value semantics, which
the spec's design notes name as an equivalent implementation. -/
theorem claim_C2 {K V : Type} [LinearOrder K] (t : BTree K V)
    (ops : List (Bool × TreeOp K V)) :
    (t.clone).toArray = t.toArray
    ∧ ((∀ o ∈ ops, o.1 = true) →
        (ops.foldl applySide (t, t.clone)).1.toArray = t.toArray)
    ∧ ((∀ o ∈ ops, o.1 = false) →
        (ops.foldl applySide (t, t.clone)).2.toArray
          = (t.clone).toArray) := by
  refine ⟨rfl, ?_, ?_⟩
  · intro h
    rw [foldl_applySide_fst ops t t.clone h]
  · intro h
    rw [foldl_applySide_snd ops t t.clone h]

theorem claim_C2_witness :
    ((BTree.ofEntries [(1, 10)] none
        : BTree Nat Nat).clone).toArray
      = (BTree.ofEntries [(1, 10)] none : BTree Nat Nat).toArray
    ∧ ([((true : Bool), TreeOp.setOp (5 : Nat) (6 : Nat) true),
        (true, TreeOp.delOp 1)].foldl applySide
          (BTree.ofEntries [(1, 10)] none,
            (BTree.ofEntries [(1, 10)] none : BTree Nat Nat).clone)).1.toArray
      = (BTree.ofEntries [(1, 10)] none : BTree Nat Nat).toArray :=
  ⟨(claim_C2 (BTree.ofEntries [(1, 10)] none) []).1,
    (claim_C2 (BTree.ofEntries [(1, 10)] none)
      [(true, TreeOp.setOp 5 6 true), (true, TreeOp.delOp 1)]).2.1
      (by decide)⟩

/-- Claim C3: for every tree reachable from a freshly constructed one by any
sequence of `set` and `delete` operations, in-order iteration (`entries`,
materialised by `toArray`) yields keys in strictly ascending order under the
tree's comparator, and the `size` property equals the number of pairs that
iteration produces. -/
theorem claim_C3 {K V : Type} [LinearOrder K] (t : BTree K V)
    (h : Reachable t) :
    List.Sorted (· < ·) (keysOfList t.toArray)
    ∧ t.entriesList = t.toArray
    ∧ t.size = t.toArray.length :=
  ⟨h.valid.1, rfl, h.valid.2.2.1⟩

theorem claim_C3_witness :
    List.Sorted (· < ·) (keysOfList
      (((BTree.ofEntries [(3, 0), (1, 0), (2, 0)] (some 4)
          : BTree Nat Nat).set 7 1 true).1.toArray))
    ∧ ((BTree.ofEntries [(3, 0), (1, 0), (2, 0)] (some 4)
          : BTree Nat Nat).set 7 1 true).1.entriesList
        = ((BTree.ofEntries [(3, 0), (1, 0), (2, 0)] (some 4)
            : BTree Nat Nat).set 7 1 true).1.toArray
    ∧ ((BTree.ofEntries [(3, 0), (1, 0), (2, 0)] (some 4)
          : BTree Nat Nat).set 7 1 true).1.size
        = ((BTree.ofEntries [(3, 0), (1, 0), (2, 0)] (some 4)
            : BTree Nat Nat).set 7 1 true).1.toArray.length :=
  claim_C3 _ (Reachable.setStep _ 7 1 true
    (Reachable.base [(3, 0), (1, 0), (2, 0)] (some 4)))

/-- Claim C4: for every array `A` of key-value pairs, the tree constructed
from `A` materialises to `A` sorted by key with duplicate keys collapsed so
that the last pair of `A` with a given key wins; and `setRange(pairs)`
applies `set` to the pairs in order, so later duplicates overwrite earlier
ones. -/
theorem claim_C4 {K V : Type} [LinearOrder K] (A : List (K × V))
    (M? : Option Nat) (t : BTree K V) (pairs : List (K × V))
    (hv : Valid t) :
    (BTree.ofEntries A M? : BTree K V).toArray = sortUniqueLastWins A
    ∧ (t.setRange pairs).toArray
        = pairs.foldl (fun l p => insertPair p.1 p.2 l) t.toArray := by
  refine ⟨?_, (BTree.setRange_facade t pairs hv).1⟩
  rw [(BTree.ofEntries_facade A M?).1, foldl_insert_eq_sortUnique]

theorem claim_C4_witness :
    (BTree.ofEntries [(2, 0), (1, 1), (2, 5)] none
        : BTree Nat Nat).toArray
      = sortUniqueLastWins [(2, 0), (1, 1), (2, 5)]
    ∧ ((BTree.ofEntries [(2, 0), (1, 1), (2, 5)] none
        : BTree Nat Nat).setRange [(9, 9)]).toArray
      = [(9, 9)].foldl (fun l p => insertPair p.1 p.2 l)
          (BTree.ofEntries [(2, 0), (1, 1), (2, 5)] none
            : BTree Nat Nat).toArray :=
  claim_C4 [(2, 0), (1, 1), (2, 5)] none _ [(9, 9)]
    (BTree.ofEntries_facade [(2, 0), (1, 1), (2, 5)] none).2

/-- Claim C7: for every tree and key, `has(k)` returns true exactly when
`get(k)`, called without a default value, returns something other than the
absent-value sentinel `none`. -/
theorem claim_C7 {K V : Type} [LinearOrder K] (t : BTree K V) (k : K) :
    t.has k = true ↔ t.get k ≠ none := by
  rw [BTree.has]
  cases t.get k <;> simp

/-- Claim C10: on an empty tree, freshly constructed with no entries or
produced by `clear()`, `minKey()` and `maxKey()` both return the undefined
sentinel `none`, and `get(k)` without a default value returns `none` for
every key. -/
theorem claim_C10 {K V : Type} [LinearOrder K] (M? : Option Nat)
    (t : BTree K V) (k : K) :
    (BTree.mkEmpty M? : BTree K V).minKey = none
    ∧ (BTree.mkEmpty M? : BTree K V).maxKey = none
    ∧ (BTree.mkEmpty M? : BTree K V).get k = none
    ∧ (BTree.ofEntries [] M? : BTree K V) = BTree.mkEmpty M?
    ∧ (t.clear).minKey = none
    ∧ (t.clear).maxKey = none
    ∧ (t.clear).get k = none :=
  ⟨rfl, rfl, rfl, rfl, rfl, rfl, rfl⟩

end Claims

section ClaimsB

/-- Claim C5: `editRange(lo, hi, includeHigh, onFound, c0)` applies the
callback's directives exactly as the flat in-order loop `editItems` does:
`{value: x}` replaces only the current pair's value, `{delete: true}` removes
exactly the current pair, `{break: R}` stops the scan and makes `editRange`
return `R`, and the counter argument equals the initial counter plus the
number of prior callback calls (the counter threading of `editItems`); the
size counter decreases by the number of deletions. Concretely, on keys 1..10
with values equal to keys, deleting even keys and negating odd values leaves
exactly `[(1, -1), (3, -3), (5, -5), (7, -7), (9, -9)]`. -/
theorem claim_C5 {K V R : Type} [LinearOrder K] (t : BTree K V) (lo hi : K)
    (inc : Bool) (f : K → V → Nat → EditDirective V R) (c0 : Nat)
    (hv : Valid t) :
    ((t.editRange lo hi inc f c0).1.toArray
        = (editItems lo hi inc f c0 t.toArray).1
      ∧ (t.editRange lo hi inc f c0).2
        = (editItems lo hi inc f c0 t.toArray).2.1
      ∧ (t.editRange lo hi inc f c0).1.size
        = t.size - (editItems lo hi inc f c0 t.toArray).2.2)
    ∧ ((BTree.ofEntries
          ((List.range 10).map (fun n => ((n : Int) + 1, (n : Int) + 1)))
          none : BTree Int Int).editRange (R := Nat) 1 10 true
          (fun k v _ => if k % 2 = 0 then ⟨none, none, true⟩
            else ⟨some (-v), none, false⟩) 0).1.toArray
        = [(1, -1), (3, -3), (5, -5), (7, -7), (9, -9)] :=
  ⟨BTree.editRange_facade t lo hi inc f c0 hv, by decide⟩

theorem claim_C5_witness :
    (((BTree.ofEntries [(1, 1), (2, 2)] none
          : BTree Nat Nat).editRange (R := Nat) 1 2 true
          (fun _ _ _ => ⟨none, none, true⟩) 0).1.toArray
        = (editItems (R := Nat) 1 2 true (fun _ _ _ => ⟨none, none, true⟩) 0
            (BTree.ofEntries [(1, 1), (2, 2)] none
              : BTree Nat Nat).toArray).1
      ∧ ((BTree.ofEntries [(1, 1), (2, 2)] none
          : BTree Nat Nat).editRange (R := Nat) 1 2 true
          (fun _ _ _ => ⟨none, none, true⟩) 0).2
        = (editItems (R := Nat) 1 2 true (fun _ _ _ => ⟨none, none, true⟩) 0
            (BTree.ofEntries [(1, 1), (2, 2)] none
              : BTree Nat Nat).toArray).2.1
      ∧ ((BTree.ofEntries [(1, 1), (2, 2)] none
          : BTree Nat Nat).editRange (R := Nat) 1 2 true
          (fun _ _ _ => ⟨none, none, true⟩) 0).1.size
        = (BTree.ofEntries [(1, 1), (2, 2)] none : BTree Nat Nat).size
            - (editItems (R := Nat) 1 2 true
                (fun _ _ _ => ⟨none, none, true⟩) 0
                (BTree.ofEntries [(1, 1), (2, 2)] none
                  : BTree Nat Nat).toArray).2.2)
    ∧ ((BTree.ofEntries
          ((List.range 10).map (fun n => ((n : Int) + 1, (n : Int) + 1)))
          none : BTree Int Int).editRange (R := Nat) 1 10 true
          (fun k v _ => if k % 2 = 0 then ⟨none, none, true⟩
            else ⟨some (-v), none, false⟩) 0).1.toArray
        = [(1, -1), (3, -3), (5, -5), (7, -7), (9, -9)] :=
  claim_C5 (BTree.ofEntries [(1, 1), (2, 2)] none) 1 2 true
    (fun _ _ _ => ⟨none, none, true⟩) 0
    (BTree.ofEntries_facade [(1, 1), (2, 2)] none).2

/-- Claim C6: `forRange(lo, hi, includeHigh, onFound, c0)` calls the callback
exactly once per stored pair whose key lies in the range, in ascending key
order, with the counter equal to `c0` plus the number of prior calls (this is
`forPairsSpec` run on the in-range filter of the contents); if a call breaks
with `R` the operation returns `R`, and otherwise it returns the total count.
Concretely, over keys 1..100, breaking with the current key when the counter
reaches 3 in the range `[10, 20]` returns 13. -/
theorem claim_C6 {K V R : Type} [LinearOrder K] (t : BTree K V) (lo hi : K)
    (inc : Bool) (f : K → V → Nat → Option R) (c0 : Nat) (hv : Valid t) :
    (t.forRange lo hi inc f c0
        = forPairsSpec f c0
            (t.toArray.filter (fun p => inRangeB lo hi inc p.1))
      ∧ ((∀ k v c, f k v c = none) →
          t.forRange lo hi inc f c0
            = .inr (c0 + (t.toArray.filter
                (fun p => inRangeB lo hi inc p.1)).length)))
    ∧ (BTree.ofEntries ((List.range 100).map (fun n => (n + 1, n + 1)))
          none : BTree Nat Nat).forRange 10 20 true
          (fun k _ c => if c = 3 then some k else none) 0
        = Sum.inl 13 := by
  refine ⟨⟨BTree.forRange_spec t lo hi inc f c0 hv, ?_⟩, by decide⟩
  intro h
  rw [BTree.forRange_spec t lo hi inc f c0 hv,
    forPairsSpec_no_break f c0 _ h]

theorem claim_C6_witness :
    ((BTree.ofEntries [(1, 1), (2, 2)] none : BTree Nat Nat).forRange
          (R := Nat) 1 2 true (fun _ _ _ => none) 0
        = forPairsSpec (R := Nat) (fun _ _ _ => none) 0
            ((BTree.ofEntries [(1, 1), (2, 2)] none
              : BTree Nat Nat).toArray.filter
                (fun p => inRangeB 1 2 true p.1))
      ∧ ((∀ (k v c : Nat), (fun (_ _ _ : Nat) => (none : Option Nat)) k v c
            = none) →
          (BTree.ofEntries [(1, 1), (2, 2)] none : BTree Nat Nat).forRange
              (R := Nat) 1 2 true (fun _ _ _ => none) 0
            = .inr (0 + ((BTree.ofEntries [(1, 1), (2, 2)] none
                : BTree Nat Nat).toArray.filter
                  (fun p => inRangeB 1 2 true p.1)).length)))
    ∧ (BTree.ofEntries ((List.range 100).map (fun n => (n + 1, n + 1)))
          none : BTree Nat Nat).forRange 10 20 true
          (fun k _ c => if c = 3 then some k else none) 0
        = Sum.inl 13 :=
  claim_C6 (BTree.ofEntries [(1, 1), (2, 2)] none) 1 2 true
    (fun _ _ _ => none) 0
    (BTree.ofEntries_facade [(1, 1), (2, 2)] none).2

/-- Claim C8: the `maxNodeSize` of every constructed tree lies in the range
`[4, 256]`: a requested branching factor inside the range is used as given,
one above 256 becomes 256, one below 4 is replaced by the in-range default
32, and an omitted argument yields the default 32. -/
theorem claim_C8 {K V : Type} [LinearOrder K] (M? : Option Nat)
    (A : List (K × V)) :
    (4 ≤ (BTree.ofEntries A M? : BTree K V).maxNodeSize
      ∧ (BTree.ofEntries A M? : BTree K V).maxNodeSize ≤ 256)
    ∧ (∀ m, M? = some m → 4 ≤ m → m ≤ 256 →
        (BTree.ofEntries A M? : BTree K V).maxNodeSize = m)
    ∧ (∀ m, M? = some m → 256 < m →
        (BTree.ofEntries A M? : BTree K V).maxNodeSize = 256)
    ∧ (∀ m, M? = some m → m < 4 →
        (BTree.ofEntries A M? : BTree K V).maxNodeSize = 32)
    ∧ (M? = none → (BTree.ofEntries A M? : BTree K V).maxNodeSize = 32) := by
  rw [BTree.maxNodeSize_ofEntries]
  refine ⟨clampNodeSize_bounds M?, ?_, ?_, ?_, ?_⟩
  · rintro m rfl h4 h256
    simp only [clampNodeSize, if_pos h4]
    omega
  · rintro m rfl h256
    simp only [clampNodeSize, if_pos (by omega : 4 ≤ m)]
    omega
  · rintro m rfl h4
    simp only [clampNodeSize, if_neg (by omega : ¬4 ≤ m)]
  · rintro rfl
    rfl

theorem claim_C8_witness :
    (4 ≤ (BTree.ofEntries ([] : List (Nat × Nat)) (some 300)).maxNodeSize
      ∧ (BTree.ofEntries ([] : List (Nat × Nat))
          (some 300)).maxNodeSize ≤ 256)
    ∧ (BTree.ofEntries ([] : List (Nat × Nat)) (some 300)).maxNodeSize = 256
    ∧ (BTree.ofEntries ([] : List (Nat × Nat)) (some 10)).maxNodeSize = 10
    ∧ (BTree.ofEntries ([] : List (Nat × Nat)) (some 2)).maxNodeSize = 32
    ∧ (BTree.ofEntries ([] : List (Nat × Nat)) none).maxNodeSize = 32 :=
  ⟨(claim_C8 (some 300) ([] : List (Nat × Nat))).1,
   (claim_C8 (some 300) ([] : List (Nat × Nat))).2.2.1 300 rfl (by omega),
   (claim_C8 (some 10) ([] : List (Nat × Nat))).2.1 10 rfl (by omega)
     (by omega),
   (claim_C8 (some 2) ([] : List (Nat × Nat))).2.2.2.1 2 rfl (by omega),
   (claim_C8 none ([] : List (Nat × Nat))).2.2.2.2 rfl⟩

/-- Claim C9: after `freeze()`, every mutating operation (`set`,
`setIfNotPresent`, `changeIfPresent`, `delete`, `clear`, `setRange`,
`editRange`, `deleteRange`) fails the call with the frozen-mutation error —
no updated tree is produced, so the contents are unchanged — while read
operations are unaffected by the flag and behave as on the unfrozen tree;
`unfreeze()` reverses the effect so mutations succeed again. -/
theorem claim_C9 {K V R : Type} [LinearOrder K] (t : BTree K V)
    (hf : t.frozen = true) (k : K) (v : V) (ow : Bool) (lo hi : K)
    (inc : Bool) (pairs : List (K × V))
    (f : K → V → Nat → EditDirective V R) (c0 : Nat) :
    t.setF k v ow = .error .frozenMutation
    ∧ t.setIfNotPresentF k v = .error .frozenMutation
    ∧ t.changeIfPresentF k v = .error .frozenMutation
    ∧ t.deleteF k = .error .frozenMutation
    ∧ t.clearF = .error .frozenMutation
    ∧ t.setRangeF pairs = .error .frozenMutation
    ∧ t.editRangeF lo hi inc f c0 = .error .frozenMutation
    ∧ t.deleteRangeF lo hi inc = .error .frozenMutation
    ∧ t.get k = (t.unfreeze).get k
    ∧ t.has k = (t.unfreeze).has k
    ∧ t.toArray = (t.unfreeze).toArray
    ∧ t.size = (t.unfreeze).size
    ∧ (t.unfreeze).setF k v ow = .ok ((t.unfreeze).set k v ow)
    ∧ (t.unfreeze).deleteF k = .ok ((t.unfreeze).delete k)
    ∧ (t.unfreeze).editRangeF lo hi inc f c0
        = .ok ((t.unfreeze).editRange lo hi inc f c0) := by
  refine ⟨?_, ?_, ?_, ?_, ?_, ?_, ?_, ?_, rfl, rfl, rfl, rfl, rfl, rfl, rfl⟩
    <;> simp [BTree.setF, BTree.setIfNotPresentF, BTree.changeIfPresentF,
      BTree.deleteF, BTree.clearF, BTree.setRangeF, BTree.editRangeF,
      BTree.deleteRangeF, hf]

theorem claim_C9_witness :
    ((BTree.ofEntries [(1, 1)] none : BTree Nat Nat).freeze).setF 2 2 true
        = .error .frozenMutation
    ∧ (((BTree.ofEntries [(1, 1)] none
        : BTree Nat Nat).freeze).unfreeze).setF 2 2 true
        = .ok ((((BTree.ofEntries [(1, 1)] none
            : BTree Nat Nat).freeze).unfreeze).set 2 2 true) :=
  ⟨(claim_C9 (R := Nat) ((BTree.ofEntries [(1, 1)] none
      : BTree Nat Nat).freeze) rfl 2 2 true 0 0 false []
      (fun _ _ _ => ⟨none, none, false⟩) 0).1,
   (claim_C9 (R := Nat) ((BTree.ofEntries [(1, 1)] none
      : BTree Nat Nat).freeze) rfl 2 2 true 0 0 false []
      (fun _ _ _ => ⟨none, none, false⟩) 0).2.2.2.2.2.2.2.2.2.2.2.2.1⟩

end ClaimsB
